import Mathlib

/-!
Shallow embedding of the word-count cross-validation core of the
`wordcount` repository (`src/verify.py`, `src/contraction_handler.py`,
`src/word_analyzer.py`).

Texts and tokens are modelled as `List Char`.  Python's Unicode character
classes (`str.isalpha`, `\w`, `\b`, `str.lower`, `\d`) are modelled by their
ASCII restrictions, matching the input domain the specification declares
(Latin-alphabet text with arbitrary punctuation and digits interspersed);
on that domain the Python classes and the ASCII ones coincide.
-/

namespace Wordcount

/-- Word character for Python's regex `\b` boundary: `[a-zA-Z0-9_]`
(ASCII restriction of Unicode `\w`). -/
def isWordChar (c : Char) : Bool :=
  c.isAlpha || c.isDigit || c = '_'

/-- `\b` boundary test on the left of a match: start of string, or the
previous character is not a word character.  (All patterns involved start
with a letter, so the boundary holds iff the previous character is
non-word.) -/
def bprev : Option Char → Bool
  | none => true
  | some c => !isWordChar c

/-- `\b` boundary test on the right of a match: end of string, or the next
character is not a word character.  (All patterns involved end with a
letter.) -/
def notWordAt : List Char → Bool
  | [] => true
  | c :: _ => !isWordChar c

/-- Whitespace for Python's `str.split()` (ASCII restriction). -/
def pyIsSpace (c : Char) : Bool :=
  c = ' ' || c = '\t' || c = '\n' || c = '\r' || c = '\x0b' || c = '\x0c'

/-- Python `str.split()` with no separator: split on whitespace runs,
discarding empty pieces.  The `fuel` argument makes the recursion
structural; `fuel = s.length` always suffices (each step consumes at
least one character) and the wrapper `wordSplit` supplies it. -/
def wordSplitGo : Nat → List Char → List (List Char)
  | _, [] => []
  | 0, _ :: _ => []
  | fuel + 1, c :: rest =>
    if pyIsSpace c then wordSplitGo fuel rest
    else (c :: rest.takeWhile (fun x => !pyIsSpace x)) ::
      wordSplitGo fuel (rest.dropWhile (fun x => !pyIsSpace x))

/-- Python `str.split()`. -/
def wordSplit (t : List Char) : List (List Char) :=
  wordSplitGo t.length t

/-- `re.findall(r'[a-zA-Z]+', t)`: all maximal runs of ASCII letters
(fueled structural recursion, `fuel = s.length` suffices). -/
def alphaRunsGo : Nat → List Char → List (List Char)
  | _, [] => []
  | 0, _ :: _ => []
  | fuel + 1, c :: rest =>
    if c.isAlpha then
      (c :: rest.takeWhile Char.isAlpha) ::
        alphaRunsGo fuel (rest.dropWhile Char.isAlpha)
    else alphaRunsGo fuel rest

/-- `re.findall(r'[a-zA-Z]+', t)`. -/
def alphaRuns (t : List Char) : List (List Char) :=
  alphaRunsGo t.length t

/-- `re.findall(r'\b[a-zA-Z]+\b', t)` scanning with `prev` the character
just before the current position: a maximal letter run is a match iff the
characters adjacent to it on both sides (when they exist) are non-word
characters; otherwise the backtracking engine finds no match anywhere in
the run (every interior position is preceded by a letter).  Fueled
structural recursion, `fuel = s.length` suffices. -/
def alphaRunsBGo : Nat → Option Char → List Char → List (List Char)
  | _, _, [] => []
  | 0, _, _ :: _ => []
  | fuel + 1, prev, c :: rest =>
    if c.isAlpha then
      let run := c :: rest.takeWhile Char.isAlpha
      let rest2 := rest.dropWhile Char.isAlpha
      (if bprev prev && notWordAt rest2 then [run] else []) ++
        alphaRunsBGo fuel (some (run.getLastD c)) rest2
    else alphaRunsBGo fuel (some c) rest

/-- `re.findall(r'\b[a-zA-Z]+\b', t)` with `prev` the character just
before the current position (`none` at the start of the string). -/
def alphaRunsB (prev : Option Char) (t : List Char) : List (List Char) :=
  alphaRunsBGo t.length prev t

/-- Case-insensitive literal match of `key` against the front of a text
(Python `re.IGNORECASE`, ASCII restriction). -/
def matchCI : List Char → List Char → Bool
  | [], _ => true
  | _ :: _, [] => false
  | k :: ks, c :: cs => (k.toLower = c.toLower) && matchCI ks cs

/-- The match condition of one `re.sub(r'\b'+re.escape(key)+r'\b', ...,
flags=re.IGNORECASE)` attempt at the current position, for a `key` that
starts and ends with a letter: left boundary, case-insensitive literal
match, right boundary after the matched text. -/
def subCond (key : List Char) (prev : Option Char) (s : List Char) : Prop :=
  key ≠ [] ∧ bprev prev = true ∧ matchCI key s = true ∧
    notWordAt (s.drop key.length) = true

instance (key : List Char) (prev : Option Char) (s : List Char) :
    Decidable (subCond key prev s) := by
  unfold subCond; infer_instance

/-- One pass of `re.sub(r'\b' + re.escape(key) + r'\b', repl, text,
flags=re.IGNORECASE)` for a `key` that starts and ends with a letter:
scan left to right; at each position a match requires `subCond`; on a
match the replacement is spliced in and scanning resumes after the
matched text of the original string.  Fueled structural recursion,
`fuel = s.length` suffices. -/
def subWordCIGo (key expn : List Char) : Nat → Option Char → List Char → List Char
  | _, _, [] => []
  | 0, _, s => s
  | fuel + 1, prev, c :: rest =>
    if subCond key prev (c :: rest) then
      expn ++ subWordCIGo key expn fuel
        (some (((c :: rest).take key.length).getLastD c))
        ((c :: rest).drop key.length)
    else c :: subWordCIGo key expn fuel (some c) rest

/-- One `re.sub` pass (see `subWordCIGo`). -/
def subWordCI (key expn : List Char) (prev : Option Char) (s : List Char) : List Char :=
  subWordCIGo key expn s.length prev s

/-- Does the remainder after a greedy letter run begin with the literal
`'s` required by the possessive pattern? -/
def possHit : List Char → Bool
  | '\x27' :: 's' :: _ => true
  | _ => false

/-- The text after the `'s` of a possessive hit (the argument itself when
there is no hit). -/
def possTail : List Char → List Char
  | '\x27' :: 's' :: r => r
  | l => l

/-- `re.sub(r"\b([a-zA-Z]+)'s\b", r'\1', text)` (no IGNORECASE flag):
scan left to right; at a position preceded by a non-word character and
holding a letter, the greedy group takes the maximal letter run; the match
succeeds iff that run is followed by `'s` and then a right boundary, and
then the run alone replaces the whole match.  Backtracking the greedy
group always fails (a shortened run is followed by a letter, not `'`), and
no match can start inside a run, so on failure the scan skips the run.
Fueled structural recursion, `fuel = s.length` suffices. -/
def possStripGo : Nat → Option Char → List Char → List Char
  | _, _, [] => []
  | 0, _, s => s
  | fuel + 1, prev, c :: rest =>
    if c.isAlpha && bprev prev then
      let run := c :: rest.takeWhile Char.isAlpha
      let r := rest.dropWhile Char.isAlpha
      if possHit r then
        if notWordAt (possTail r) then run ++ possStripGo fuel (some 's') (possTail r)
        else run ++ possStripGo fuel (some (run.getLastD c)) r
      else run ++ possStripGo fuel (some (run.getLastD c)) r
    else c :: possStripGo fuel (some c) rest

/-- The possessive-stripping `re.sub` pass (see `possStripGo`). -/
def possStrip (prev : Option Char) (s : List Char) : List Char :=
  possStripGo s.length prev s

/-- Helper to write a contraction table key `a'b` (apostrophe between the
two letter groups). -/
def ap (a b : String) : List Char :=
  a.data ++ '\x27' :: b.data

/-- The module-level constant `STANDARD_CONTRACTIONS` of
`src/contraction_handler.py`, in Python dict insertion order (the order in
which `expand_contractions` iterates it). -/
def STANDARD_CONTRACTIONS : List (List Char × List (List Char)) :=
  [ (ap "i" "m", ["i".data, "am".data]),
    (ap "you" "re", ["you".data, "are".data]),
    (ap "he" "s", ["he".data, "is".data]),
    (ap "she" "s", ["she".data, "is".data]),
    (ap "it" "s", ["it".data, "is".data]),
    (ap "we" "re", ["we".data, "are".data]),
    (ap "they" "re", ["they".data, "are".data]),
    (ap "i" "ve", ["i".data, "have".data]),
    (ap "you" "ve", ["you".data, "have".data]),
    (ap "we" "ve", ["we".data, "have".data]),
    (ap "they" "ve", ["they".data, "have".data]),
    (ap "i" "ll", ["i".data, "will".data]),
    (ap "you" "ll", ["you".data, "will".data]),
    (ap "he" "ll", ["he".data, "will".data]),
    (ap "she" "ll", ["she".data, "will".data]),
    (ap "it" "ll", ["it".data, "will".data]),
    (ap "we" "ll", ["we".data, "will".data]),
    (ap "they" "ll", ["they".data, "will".data]),
    (ap "i" "d", ["i".data, "would".data]),
    (ap "you" "d", ["you".data, "would".data]),
    (ap "he" "d", ["he".data, "would".data]),
    (ap "she" "d", ["she".data, "would".data]),
    (ap "it" "d", ["it".data, "would".data]),
    (ap "we" "d", ["we".data, "would".data]),
    (ap "they" "d", ["they".data, "would".data]),
    (ap "who" "s", ["who".data, "is".data]),
    (ap "what" "s", ["what".data, "is".data]),
    (ap "where" "s", ["where".data, "is".data]),
    (ap "when" "s", ["when".data, "is".data]),
    (ap "why" "s", ["why".data, "is".data]),
    (ap "how" "s", ["how".data, "is".data]),
    (ap "there" "s", ["there".data, "is".data]),
    (ap "that" "s", ["that".data, "is".data]),
    (ap "here" "s", ["here".data, "is".data]),
    (ap "don" "t", ["do".data, "not".data]),
    (ap "doesn" "t", ["does".data, "not".data]),
    (ap "didn" "t", ["did".data, "not".data]),
    (ap "can" "t", ["can".data, "not".data]),
    ("cannot".data, ["can".data, "not".data]),
    (ap "couldn" "t", ["could".data, "not".data]),
    (ap "won" "t", ["will".data, "not".data]),
    (ap "wouldn" "t", ["would".data, "not".data]),
    (ap "shouldn" "t", ["should".data, "not".data]),
    (ap "mustn" "t", ["must".data, "not".data]),
    (ap "isn" "t", ["is".data, "not".data]),
    (ap "aren" "t", ["are".data, "not".data]),
    (ap "wasn" "t", ["was".data, "not".data]),
    (ap "weren" "t", ["were".data, "not".data]),
    (ap "hasn" "t", ["has".data, "not".data]),
    (ap "haven" "t", ["have".data, "not".data]),
    (ap "hadn" "t", ["had".data, "not".data]),
    (ap "needn" "t", ["need".data, "not".data]),
    (ap "daren" "t", ["dare".data, "not".data]),
    (ap "shan" "t", ["shall".data, "not".data]),
    (ap "let" "s", ["let".data, "us".data]),
    (ap "ma" "am", ["madam".data]),
    (ap "o" "clock", ["of".data, "the".data, "clock".data]) ]

/-- `' '.join(expansion)`. -/
def joinWords : List (List Char) → List Char
  | [] => []
  | [w] => w
  | w :: v :: ws => w ++ ' ' :: joinWords (v :: ws)

/-- `expand_contractions` of `src/contraction_handler.py`: one
`re.sub(r'\b'+re.escape(key)+r'\b', ' '.join(expansion), text, IGNORECASE)`
pass per table entry, in dict order, followed by the possessive pass
`re.sub(r"\b([a-zA-Z]+)'s\b", r'\1', text)`. -/
def expand_contractions (text : List Char) : List Char :=
  possStrip none
    (STANDARD_CONTRACTIONS.foldl
      (fun acc kv => subWordCI kv.1 (joinWords kv.2) none acc) text)

/-- `extract_words_with_smart_contractions`: expand contractions, then
`re.findall(r'\b[a-zA-Z]+\b', ...)`, then lowercase every token. -/
def extract_words_with_smart_contractions (text : List Char) : List (List Char) :=
  (alphaRunsB none (expand_contractions text)).map (fun w => w.map Char.toLower)

/-- The result record built by each `count_words_method*` function; the
fields `total_words`, `unique_words` and `word_freq` of the Python dict
are all computed from `word_list` (`len`, `len(Counter)`, `Counter`) and
are exposed below as derived accessors. -/
structure MethodResult where
  method : String
  word_list : List (List Char)
deriving DecidableEq, Repr

/-- `total_words = len(words)`. -/
def MethodResult.total_words (r : MethodResult) : Nat :=
  r.word_list.length

/-- `unique_words = len(Counter(words))`: number of distinct tokens. -/
def MethodResult.unique_words (r : MethodResult) : Nat :=
  r.word_list.dedup.length

/-- The value `Counter(words)[w]` of the `word_freq` dict. -/
def MethodResult.freq (r : MethodResult) (w : List Char) : Nat :=
  r.word_list.count w

/-- The key set of the `word_freq` dict (as a duplicate-free list). -/
def MethodResult.freqKeys (r : MethodResult) : List (List Char) :=
  r.word_list.dedup

/-- `count_words_method1`: smart contraction handling + regex. -/
def count_words_method1 (text : List Char) : MethodResult :=
  { method := "方法1 (智能缩写)",
    word_list := extract_words_with_smart_contractions text }

/-- The literal character set of `token.strip(...)` in
`count_words_method2` (ASCII punctuation, digits, hyphen, en dash U+2013,
em dash U+2014, apostrophe, double quote; duplicates dropped). -/
def stripSet : List Char :=
  ['.', ',', '!', '?', ';', ':', '\x22', '(', ')', '[', ']', '\x7b', '\x7d',
   '0', '1', '2', '3', '4', '5', '6', '7', '8', '9',
   '-', '–', '—', '\x27']

/-- Python `s.strip(chars)`: drop leading and trailing characters that are
in the set. -/
def pyStrip (cs s : List Char) : List Char :=
  ((s.dropWhile (fun c => cs.contains c)).reverse.dropWhile
    (fun c => cs.contains c)).reverse

/-- The per-token body of the loop in `count_words_method2`: strip
punctuation/digits from both ends, keep the token only if it contains a
letter, keep only its letters, lowercase. -/
def method2_token (tok : List Char) : Option (List Char) :=
  let cleaned := pyStrip stripSet tok
  if cleaned ≠ [] ∧ cleaned.any Char.isAlpha then
    let alpha_only := cleaned.filter Char.isAlpha
    if alpha_only ≠ [] then some (alpha_only.map Char.toLower) else none
  else none

/-- `count_words_method2`: `split()` + manual filtering. -/
def count_words_method2 (text : List Char) : MethodResult :=
  { method := "方法2 (分割过滤)",
    word_list := (wordSplit text).filterMap method2_token }

/-- `count_words_method3`: remove digit runs (`re.sub(r'\d+','',text)`),
find all letter runs (`re.findall(r'[a-zA-Z]+', ...)`), lowercase. -/
def count_words_method3 (text : List Char) : MethodResult :=
  { method := "方法3 (多重模式)",
    word_list :=
      ((alphaRuns (text.filter (fun c => !c.isDigit))).filter
        (fun w => decide (0 < w.length))).map (fun w => w.map Char.toLower) }

/-- The comparison report dict built by `compare_results`. -/
structure Comparison where
  status : String
  consistent : Bool
  total_values : List (String × Nat)
  total_min : Nat
  total_max : Nat
  total_diff : Nat
  unique_values : List (String × Nat)
  unique_min : Nat
  unique_max : Nat
  unique_diff : Nat
deriving DecidableEq, Repr

/-- Python `min` over a list (never applied to `[]` in this program). -/
def pyMin : List Nat → Nat
  | [] => 0
  | x :: xs => xs.foldl Nat.min x

/-- Python `max` over a list (never applied to `[]` in this program). -/
def pyMax : List Nat → Nat
  | [] => 0
  | x :: xs => xs.foldl Nat.max x

/-- `compare_results`: with fewer than two results Python returns an
error record (modelled as `none`); otherwise the consistency report.
`len(set(xs)) == 1` is modelled as `xs.dedup.length == 1`. -/
def compare_results (results : List MethodResult) : Option Comparison :=
  if results.length < 2 then none
  else
    let total_words := results.map (fun r => r.total_words)
    let unique_words := results.map (fun r => r.unique_words)
    let total_consistent := total_words.dedup.length == 1
    let unique_consistent := unique_words.dedup.length == 1
    some
      { status := if total_consistent && unique_consistent then "pass" else "warning",
        consistent := total_consistent && unique_consistent,
        total_values := results.map (fun r => (r.method, r.total_words)),
        total_min := pyMin total_words,
        total_max := pyMax total_words,
        total_diff := pyMax total_words - pyMin total_words,
        unique_values := results.map (fun r => (r.method, r.unique_words)),
        unique_min := pyMin unique_words,
        unique_max := pyMax unique_words,
        unique_diff := pyMax unique_words - pyMin unique_words }

/-- `get_recommendation` of `src/verify.py`. -/
def get_recommendation (comparison : Comparison) : String :=
  if comparison.status = "pass" then
    "✅ 三种方法结果完全一致，统计结果可靠"
  else if comparison.total_diff ≤ 2 ∧ comparison.unique_diff ≤ 2 then
    "✅ 检测到轻微差异（≤2个词），结果可靠"
  else if comparison.total_diff ≤ 10 ∧ comparison.unique_diff ≤ 5 then
    "✅ 检测到小幅差异（≤10个词），结果可靠"
  else if comparison.total_diff ≤ 50 then
    "✅ 检测到差异（≤50个词），结果正常"
  else
    "⚠️ 检测到较大差异（>50个词），建议检查文本内容"

/-- `get_verification_summary` of `src/verify.py`. -/
def get_verification_summary (comparison : Comparison) : String :=
  if comparison.consistent then "验证通过 ✅"
  else if comparison.total_diff ≤ 2 ∧ comparison.unique_diff ≤ 2 then "验证通过 ✅"
  else if comparison.total_diff ≤ 10 ∧ comparison.unique_diff ≤ 5 then "验证通过 ✅"
  else if comparison.total_diff ≤ 50 then "验证通过 ✅"
  else "需要检查 ⚠️"

/-- Lexicographic comparison of tokens by code point: Python's `<=` on
strings (`sorted` uses it). -/
def strLe : List Char → List Char → Bool
  | [], _ => true
  | _ :: _, [] => false
  | a :: as, b :: bs =>
    if a.toNat < b.toNat then true
    else if a.toNat = b.toNat then strLe as bs
    else false

/-- `strLe` as a relation, for sorting. -/
def StrLe (a b : List Char) : Prop :=
  strLe a b = true

instance : DecidableRel StrLe :=
  fun a b => decEq (strLe a b) true

/-- Python `sorted` on a list of tokens, modelled by insertion sort with
respect to the code-point lexicographic order.  `StrLe` is total and
transitive and the sorted lists are applied to duplicate-free key lists,
so any correct sort produces the same list as CPython's timsort. -/
def pySorted (l : List (List Char)) : List (List Char) :=
  List.insertionSort StrLe l

/-- The `final_stats` dict built by `verify_text`; `word_freq_list` is the
token list whose `Counter` is the `word_freq` entry of the dict. -/
structure FinalStats where
  total_words : Nat
  unique_words : Nat
  word_freq_list : List (List Char)
  unique_word_list : List (List Char)
  selected_method : String
deriving DecidableEq, Repr

/-- `final_stats` from the chosen best result:
`unique_word_list = sorted(best_result['word_freq'].keys())`. -/
def mkFinalStats (r : MethodResult) : FinalStats :=
  { total_words := r.total_words,
    unique_words := r.unique_words,
    word_freq_list := r.word_list,
    unique_word_list := pySorted r.word_list.dedup,
    selected_method := r.method }

/-- Python `max(results, key=lambda r: r['total_words'])`: the fold keeps
the current best and replaces it only on a strictly greater key, so the
first result attaining the maximum wins.  (Python raises on an empty
sequence; this is never reached with `[]`.) -/
def pyMaxBy : List MethodResult → MethodResult
  | [] => { method := "", word_list := [] }
  | r :: rs =>
    rs.foldl (fun best x => if best.total_words < x.total_words then x else best) r

/-- The full verification report returned by `verify_text`. -/
structure Report where
  results : List MethodResult
  comparison : Comparison
  recommendation : String
  final_stats : FinalStats
  verified : Bool
deriving DecidableEq, Repr

/-- `verify_text` of `src/verify.py`.  The Python float test
`(max_total - method1_total) / max_total > 0.1` is rendered as the exact
comparison `10 * (max_total - method1_total) > max_total`; the two agree
on all word counts arising from texts of realistic size (the float
quotient of such integers is correctly rounded and `0.1` rounds up). -/
def verify_text (text : List Char) : Option Report :=
  let result1 := count_words_method1 text
  let result2 := count_words_method2 text
  let result3 := count_words_method3 text
  let results := [result1, result2, result3]
  match compare_results results with
  | none => none
  | some comparison =>
    let best_result :=
      if comparison.consistent then result1
      else
        let max_total := pyMax (results.map (fun r => r.total_words))
        let method1_total := result1.total_words
        if 0 < max_total ∧ max_total < 10 * (max_total - method1_total) then
          pyMaxBy results
        else result1
    some
      { results := results,
        comparison := comparison,
        recommendation := get_recommendation comparison,
        final_stats := mkFinalStats best_result,
        verified := comparison.consistent }

/-- The quick stats record of the `enable_verification=False` branch of
`analyze_text` (`src/word_analyzer.py`), the spec's `quickCount`:
`re.findall(r'\b[a-zA-Z]+\b', text)`, lowercase, aggregate. -/
structure QuickStats where
  total_words : Nat
  unique_words : Nat
  unique_word_list : List (List Char)
  word_freq_list : List (List Char)
deriving DecidableEq, Repr

/-- The `enable_verification=False` branch of `analyze_text`. -/
def analyze_text_quick (text : List Char) : QuickStats :=
  let words_lower := (alphaRunsB none text).map (fun w => w.map Char.toLower)
  { total_words := words_lower.length,
    unique_words := words_lower.dedup.length,
    unique_word_list := pySorted words_lower.dedup,
    word_freq_list := words_lower }

instance : IsTotal (List Char) StrLe where
  total := by
    intro a
    induction a with
    | nil => intro b; left; rfl
    | cons x xs ih =>
      intro b
      cases b with
      | nil => right; rfl
      | cons y ys =>
        unfold StrLe strLe
        rcases Nat.lt_trichotomy x.toNat y.toNat with h | h | h
        · left; rw [if_pos h]
        · rcases ih ys with hc | hc
          · left
            rw [if_neg (by omega), if_pos h]
            exact hc
          · right
            rw [if_neg (by omega), if_pos h.symm]
            exact hc
        · right; rw [if_pos h]

instance : IsTrans (List Char) StrLe where
  trans := by
    intro a
    induction a with
    | nil => intro b c _ _; rfl
    | cons x xs ih =>
      intro b c hab hbc
      cases b with
      | nil => exact absurd hab (by unfold StrLe strLe; simp)
      | cons y ys =>
        cases c with
        | nil => exact absurd hbc (by unfold StrLe strLe; simp)
        | cons z zs =>
          unfold StrLe strLe at hab hbc ⊢
          by_cases h1 : x.toNat < y.toNat
          · by_cases h2 : y.toNat < z.toNat
            · rw [if_pos (by omega)]
            · rw [if_neg h2] at hbc
              by_cases h3 : y.toNat = z.toNat
              · rw [if_pos (by omega)]
              · rw [if_neg h3] at hbc
                exact absurd hbc (by simp)
          · rw [if_neg h1] at hab
            by_cases h4 : x.toNat = y.toNat
            · rw [if_pos h4] at hab
              by_cases h2 : y.toNat < z.toNat
              · rw [if_pos (by omega)]
              · rw [if_neg h2] at hbc
                by_cases h3 : y.toNat = z.toNat
                · rw [if_pos h3] at hbc
                  rw [if_neg (by omega), if_pos (by omega)]
                  exact ih ys zs hab hbc
                · rw [if_neg h3] at hbc
                  exact absurd hbc (by simp)
            · rw [if_neg h4] at hab
              exact absurd hab (by simp)

/-- The well-formedness invariant of a `WordCount` as the specification
states it, for a token list `words` whose `Counter` is the frequency
table: `totalWords` is the sum of the frequency values, `uniqueWords` the
number of keys, and every frequency value is at least 1. -/
def WellFormedCounts (words : List (List Char)) (total unique : Nat) : Prop :=
  total = (words.dedup.map (fun w => words.count w)).sum ∧
  unique = words.dedup.length ∧
  ∀ w ∈ words.dedup, 1 ≤ words.count w

/-- Specification-side description of the cross-validator's override
target: the first strategy in evaluation order (method 1, 2, 3) whose
total word count equals the maximum of the three totals. -/
def firstMaxSpec (r1 r2 r3 : MethodResult) : MethodResult :=
  if r1.total_words = max r1.total_words (max r2.total_words r3.total_words) then r1
  else if r2.total_words = max r1.total_words (max r2.total_words r3.total_words) then r2
  else r3

/-- Lowercase ASCII letter. -/
def lcAlpha (c : Char) : Bool :=
  'a' ≤ c && c ≤ 'z'

/-- The expected effect of the `cannot` table entry on one plain word:
`"cannot"` is replaced by the text `"can not"`, every other word is kept. -/
def cannotRepl (w : List Char) : List Char :=
  if w = "cannot".data then "can not".data else w

/-- The expected effect of the `cannot` table entry at the token level:
`"cannot"` becomes the two tokens `"can"`, `"not"`. -/
def cannotExp (w : List Char) : List (List Char) :=
  if w = "cannot".data then ["can".data, "not".data] else [w]

/-- A "plain" word: nonempty and made only of lowercase ASCII letters.
Space-separated lists of plain words are the "otherwise plain text"
family over which the `cannot`-inconsistency claim is settled. -/
def PlainWord (w : List Char) : Prop :=
  w ≠ [] ∧ ∀ c ∈ w, lcAlpha c = true

instance (w : List Char) : Decidable (PlainWord w) := by
  unfold PlainWord
  infer_instance

theorem length_dropWhile_le (p : Char → Bool) :
    ∀ l : List Char, (l.dropWhile p).length ≤ l.length
  | [] => by simp
  | c :: l => by
    rw [List.dropWhile_cons]
    split
    · have := length_dropWhile_le p l
      simp only [List.length_cons]
      omega
    · simp

theorem wordSplitGo_fuel :
    ∀ (f g : Nat) (s : List Char), s.length ≤ f → s.length ≤ g →
      wordSplitGo f s = wordSplitGo g s
  | f, g, [], _, _ => by cases f <;> cases g <;> rfl
  | f + 1, g + 1, c :: rest, hf, hg => by
    simp only [List.length_cons] at hf hg
    simp only [wordSplitGo]
    have h1 : rest.length ≤ f := by omega
    have h2 : rest.length ≤ g := by omega
    have h3 := length_dropWhile_le (fun x => !pyIsSpace x) rest
    rw [wordSplitGo_fuel f g rest h1 h2,
      wordSplitGo_fuel f g (rest.dropWhile (fun x => !pyIsSpace x))
        (by omega) (by omega)]

theorem wordSplit_nil : wordSplit [] = [] := rfl

theorem wordSplit_cons (c : Char) (rest : List Char) :
    wordSplit (c :: rest) =
      if pyIsSpace c then wordSplit rest
      else (c :: rest.takeWhile (fun x => !pyIsSpace x)) ::
        wordSplit (rest.dropWhile (fun x => !pyIsSpace x)) := by
  have h3 := length_dropWhile_le (fun x => !pyIsSpace x) rest
  show wordSplitGo (rest.length + 1) (c :: rest) = _
  simp only [wordSplitGo, wordSplit]
  rw [wordSplitGo_fuel rest.length (rest.dropWhile (fun x => !pyIsSpace x)).length
    (rest.dropWhile (fun x => !pyIsSpace x)) (by omega) (by omega)]

theorem alphaRunsGo_fuel :
    ∀ (f g : Nat) (s : List Char), s.length ≤ f → s.length ≤ g →
      alphaRunsGo f s = alphaRunsGo g s
  | f, g, [], _, _ => by cases f <;> cases g <;> rfl
  | f + 1, g + 1, c :: rest, hf, hg => by
    simp only [List.length_cons] at hf hg
    simp only [alphaRunsGo]
    have h3 := length_dropWhile_le Char.isAlpha rest
    rw [alphaRunsGo_fuel f g rest (by omega) (by omega),
      alphaRunsGo_fuel f g (rest.dropWhile Char.isAlpha) (by omega) (by omega)]

theorem alphaRuns_nil : alphaRuns [] = [] := rfl

theorem alphaRuns_cons (c : Char) (rest : List Char) :
    alphaRuns (c :: rest) =
      if c.isAlpha then
        (c :: rest.takeWhile Char.isAlpha) ::
          alphaRuns (rest.dropWhile Char.isAlpha)
      else alphaRuns rest := by
  have h3 := length_dropWhile_le Char.isAlpha rest
  show alphaRunsGo (rest.length + 1) (c :: rest) = _
  simp only [alphaRunsGo, alphaRuns]
  rw [alphaRunsGo_fuel rest.length (rest.dropWhile Char.isAlpha).length
    (rest.dropWhile Char.isAlpha) (by omega) (by omega)]

theorem alphaRunsBGo_fuel :
    ∀ (f g : Nat) (prev : Option Char) (s : List Char),
      s.length ≤ f → s.length ≤ g → alphaRunsBGo f prev s = alphaRunsBGo g prev s
  | f, g, _, [], _, _ => by cases f <;> cases g <;> rfl
  | f + 1, g + 1, prev, c :: rest, hf, hg => by
    simp only [List.length_cons] at hf hg
    simp only [alphaRunsBGo]
    have h3 := length_dropWhile_le Char.isAlpha rest
    rw [alphaRunsBGo_fuel f g (some c) rest (by omega) (by omega),
      alphaRunsBGo_fuel f g
        (some ((c :: rest.takeWhile Char.isAlpha).getLastD c))
        (rest.dropWhile Char.isAlpha) (by omega) (by omega)]

theorem alphaRunsB_nil (prev : Option Char) : alphaRunsB prev [] = [] := rfl

theorem alphaRunsB_cons (prev : Option Char) (c : Char) (rest : List Char) :
    alphaRunsB prev (c :: rest) =
      if c.isAlpha then
        (if bprev prev && notWordAt (rest.dropWhile Char.isAlpha) then
          [c :: rest.takeWhile Char.isAlpha] else []) ++
          alphaRunsB (some ((c :: rest.takeWhile Char.isAlpha).getLastD c))
            (rest.dropWhile Char.isAlpha)
      else alphaRunsB (some c) rest := by
  have h3 := length_dropWhile_le Char.isAlpha rest
  show alphaRunsBGo (rest.length + 1) prev (c :: rest) = _
  simp only [alphaRunsBGo, alphaRunsB]
  rw [alphaRunsBGo_fuel rest.length (rest.dropWhile Char.isAlpha).length
    (some ((c :: rest.takeWhile Char.isAlpha).getLastD c))
    (rest.dropWhile Char.isAlpha) (by omega) (by omega)]

theorem matchCI_length_le : ∀ (k s : List Char), matchCI k s = true → k.length ≤ s.length
  | [], _, _ => by simp
  | _ :: _, [], h => by simp [matchCI] at h
  | k :: ks, c :: cs, h => by
    simp only [matchCI, Bool.and_eq_true] at h
    have := matchCI_length_le ks cs h.2
    simp only [List.length_cons]
    omega

theorem subWordCIGo_fuel (key expn : List Char) :
    ∀ (f g : Nat) (prev : Option Char) (s : List Char),
      s.length ≤ f → s.length ≤ g →
      subWordCIGo key expn f prev s = subWordCIGo key expn g prev s
  | f, g, _, [], _, _ => by cases f <;> cases g <;> rfl
  | f + 1, g + 1, prev, c :: rest, hf, hg => by
    simp only [List.length_cons] at hf hg
    simp only [subWordCIGo]
    by_cases h : subCond key prev (c :: rest)
    · have hlen := matchCI_length_le key (c :: rest) h.2.2.1
      have hk : 1 ≤ key.length := by
        cases key with
        | nil => exact absurd rfl h.1
        | cons a l => simp
      simp only [List.length_cons] at hlen
      rw [if_pos h, if_pos h,
        subWordCIGo_fuel key expn f g
          (some (((c :: rest).take key.length).getLastD c))
          ((c :: rest).drop key.length)
          (by simp only [List.length_drop, List.length_cons]; omega)
          (by simp only [List.length_drop, List.length_cons]; omega)]
    · rw [if_neg h, if_neg h,
        subWordCIGo_fuel key expn f g (some c) rest (by omega) (by omega)]

theorem subWordCI_nil (key expn : List Char) (prev : Option Char) :
    subWordCI key expn prev [] = [] := rfl

theorem subWordCI_cons (key expn : List Char) (prev : Option Char)
    (c : Char) (rest : List Char) :
    subWordCI key expn prev (c :: rest) =
      if subCond key prev (c :: rest) then
        expn ++ subWordCI key expn
          (some (((c :: rest).take key.length).getLastD c))
          ((c :: rest).drop key.length)
      else c :: subWordCI key expn (some c) rest := by
  show subWordCIGo key expn (rest.length + 1) prev (c :: rest) = _
  simp only [subWordCIGo, subWordCI]
  by_cases h : subCond key prev (c :: rest)
  · have hlen := matchCI_length_le key (c :: rest) h.2.2.1
    have hk : 1 ≤ key.length := by
      cases key with
      | nil => exact absurd rfl h.1
      | cons a l => simp
    simp only [List.length_cons] at hlen
    rw [if_pos h, if_pos h,
      subWordCIGo_fuel key expn rest.length ((c :: rest).drop key.length).length
        (some (((c :: rest).take key.length).getLastD c))
        ((c :: rest).drop key.length)
        (by simp only [List.length_drop, List.length_cons]; omega)
        (by omega)]
  · rw [if_neg h, if_neg h]

theorem possTail_length_le : ∀ l : List Char, (possTail l).length ≤ l.length := by
  intro l
  unfold possTail
  split
  · simp only [List.length_cons]; omega
  · exact le_refl _

theorem possStripGo_fuel :
    ∀ (f g : Nat) (prev : Option Char) (s : List Char),
      s.length ≤ f → s.length ≤ g → possStripGo f prev s = possStripGo g prev s
  | f, g, _, [], _, _ => by cases f <;> cases g <;> rfl
  | f + 1, g + 1, prev, c :: rest, hf, hg => by
    simp only [List.length_cons] at hf hg
    simp only [possStripGo]
    have h3 := length_dropWhile_le Char.isAlpha rest
    have h4 := possTail_length_le (rest.dropWhile Char.isAlpha)
    by_cases h : (c.isAlpha && bprev prev) = true
    · rw [if_pos h, if_pos h]
      by_cases hhit : possHit (rest.dropWhile Char.isAlpha) = true
      · rw [if_pos hhit, if_pos hhit]
        by_cases hb : notWordAt (possTail (rest.dropWhile Char.isAlpha)) = true
        · rw [if_pos hb, if_pos hb,
            possStripGo_fuel f g (some 's') (possTail (rest.dropWhile Char.isAlpha))
              (by omega) (by omega)]
        · rw [if_neg hb, if_neg hb,
            possStripGo_fuel f g _ (rest.dropWhile Char.isAlpha) (by omega) (by omega)]
      · rw [if_neg hhit, if_neg hhit,
          possStripGo_fuel f g _ (rest.dropWhile Char.isAlpha) (by omega) (by omega)]
    · rw [if_neg h, if_neg h,
        possStripGo_fuel f g (some c) rest (by omega) (by omega)]

theorem possStrip_nil (prev : Option Char) : possStrip prev [] = [] := rfl

theorem possStrip_cons (prev : Option Char) (c : Char) (rest : List Char) :
    possStrip prev (c :: rest) =
      if c.isAlpha && bprev prev then
        if possHit (rest.dropWhile Char.isAlpha) then
          if notWordAt (possTail (rest.dropWhile Char.isAlpha)) then
            (c :: rest.takeWhile Char.isAlpha) ++
              possStrip (some 's') (possTail (rest.dropWhile Char.isAlpha))
          else
            (c :: rest.takeWhile Char.isAlpha) ++
              possStrip (some ((c :: rest.takeWhile Char.isAlpha).getLastD c))
                (rest.dropWhile Char.isAlpha)
        else
          (c :: rest.takeWhile Char.isAlpha) ++
            possStrip (some ((c :: rest.takeWhile Char.isAlpha).getLastD c))
              (rest.dropWhile Char.isAlpha)
      else c :: possStrip (some c) rest := by
  have h3 := length_dropWhile_le Char.isAlpha rest
  have h4 := possTail_length_le (rest.dropWhile Char.isAlpha)
  show possStripGo (rest.length + 1) prev (c :: rest) = _
  simp only [possStripGo, possStrip]
  by_cases h : (c.isAlpha && bprev prev) = true
  · rw [if_pos h, if_pos h]
    by_cases hhit : possHit (rest.dropWhile Char.isAlpha) = true
    · rw [if_pos hhit, if_pos hhit]
      by_cases hb : notWordAt (possTail (rest.dropWhile Char.isAlpha)) = true
      · rw [if_pos hb, if_pos hb,
          possStripGo_fuel rest.length (possTail (rest.dropWhile Char.isAlpha)).length
            (some 's') (possTail (rest.dropWhile Char.isAlpha)) (by omega) (by omega)]
      · rw [if_neg hb, if_neg hb,
          possStripGo_fuel rest.length (rest.dropWhile Char.isAlpha).length _
            (rest.dropWhile Char.isAlpha) (by omega) (by omega)]
    · rw [if_neg hhit, if_neg hhit,
        possStripGo_fuel rest.length (rest.dropWhile Char.isAlpha).length _
          (rest.dropWhile Char.isAlpha) (by omega) (by omega)]
  · rw [if_neg h, if_neg h]

/-- C6: Contraction expansion runs before possessive stripping in the
Contraction Expander, so a contraction that is textually identical to a
possessive pattern is resolved via the table first: Strategy A tokenizes
"It's a cat" as the four tokens ["it","is","a","cat"], not the three
tokens ["its","a","cat"]. -/
theorem contraction_expansion_precedes_possessive :
    extract_words_with_smart_contractions "It's a cat".data =
      ["it".data, "is".data, "a".data, "cat".data] ∧
    extract_words_with_smart_contractions "It's a cat".data ≠
      ["its".data, "a".data, "cat".data] := by
  decide

set_option maxRecDepth 4000 in
/-- C7: A possessive `[letters]+'s` that is not a known contraction has
only its `'s` suffix stripped and is never looked up in the contraction
table: Strategy A tokenizes "Uncle's story" as ["uncle","story"] (2
tokens, and "uncle's" is not a table key), and tokenizes
"Don't worry, Sally's coat is here." as
["do","not","worry","sally","coat","is","here"] (7 tokens, 7 unique). -/
theorem possessive_strip_without_contraction_lookup :
    extract_words_with_smart_contractions "Uncle's story".data =
      ["uncle".data, "story".data] ∧
    (∀ kv ∈ STANDARD_CONTRACTIONS, kv.1 ≠ ap "uncle" "s") ∧
    extract_words_with_smart_contractions "Don't worry, Sally's coat is here.".data =
      ["do".data, "not".data, "worry".data, "sally".data, "coat".data,
        "is".data, "here".data] ∧
    (count_words_method1 "Don't worry, Sally's coat is here.".data).total_words = 7 ∧
    (count_words_method1 "Don't worry, Sally's coat is here.".data).unique_words = 7 := by
  refine ⟨by decide, by decide, ?_, ?_, ?_⟩ <;> decide

/-- C8: Strategy B (`count_words_method2`) does not expand contractions:
on the input "don't" it yields the single token "dont" (apostrophe
dropped, letters joined), an intentional divergence from Strategy A,
which yields the two tokens "do" and "not" for the same input. -/
theorem method2_does_not_expand_contractions :
    (count_words_method2 "don't".data).word_list = ["dont".data] ∧
    (count_words_method2 "don't".data).total_words = 1 ∧
    (count_words_method1 "don't".data).word_list = ["do".data, "not".data] := by
  decide

/-- C9: Verification is deterministic and side-effect-free: `verify_text`
is a pure function of the input string, so two runs on equal inputs
return equal reports (method results, comparison, recommendation, final
stats, and verified flag included). -/
theorem verify_text_deterministic (t₁ t₂ : List Char) (h : t₁ = t₂) :
    verify_text t₁ = verify_text t₂ := by
  rw [h]

theorem verify_text_deterministic_witness :
    verify_text "hello world".data = verify_text "hello world".data :=
  verify_text_deterministic "hello world".data "hello world".data rfl

theorem compare_results_three_isSome (a b c : MethodResult) :
    ∃ cmp, compare_results [a, b, c] = some cmp :=
  ⟨_, rfl⟩

/-- C4: `verify_text` never fails: every input yields a report, and on
the empty string the final counts are all zero with an empty frequency
table, the comparison is consistent, and the confidence label is the
fully-consistent Pass message (and the short summary is the passing
one). -/
theorem verify_text_total_and_empty :
    (∀ t : List Char, ∃ rep : Report, verify_text t = some rep) ∧
    (∃ rep : Report, verify_text [] = some rep ∧
      rep.final_stats.total_words = 0 ∧
      rep.final_stats.unique_words = 0 ∧
      rep.final_stats.word_freq_list = [] ∧
      rep.final_stats.unique_word_list = [] ∧
      rep.comparison.consistent = true ∧
      rep.verified = true ∧
      rep.recommendation = "✅ 三种方法结果完全一致，统计结果可靠" ∧
      get_verification_summary rep.comparison = "验证通过 ✅") := by
  constructor
  · intro t
    obtain ⟨cmp, hc⟩ := compare_results_three_isSome
      (count_words_method1 t) (count_words_method2 t) (count_words_method3 t)
    simp only [verify_text]
    rw [hc]
    exact ⟨_, rfl⟩
  · exact ⟨_, rfl, by decide, by decide, by decide, by decide, by decide,
      by decide, by decide, by decide⟩

theorem status_ite_of_compare (rs : List MethodResult) (cmp : Comparison)
    (h : compare_results rs = some cmp) :
    cmp.status = if cmp.consistent = true then "pass" else "warning" := by
  simp only [compare_results] at h
  by_cases hl : rs.length < 2
  · rw [if_pos hl] at h
    exact absurd h (by simp)
  · rw [if_neg hl] at h
    obtain rfl := Option.some.inj h
    rfl

theorem get_recommendation_cases (cmp : Comparison)
    (hst : cmp.status = if cmp.consistent = true then "pass" else "warning") :
    get_recommendation cmp =
      if cmp.consistent = true then "✅ 三种方法结果完全一致，统计结果可靠"
      else if cmp.total_diff ≤ 2 ∧ cmp.unique_diff ≤ 2 then
        "✅ 检测到轻微差异（≤2个词），结果可靠"
      else if cmp.total_diff ≤ 10 ∧ cmp.unique_diff ≤ 5 then
        "✅ 检测到小幅差异（≤10个词），结果可靠"
      else if cmp.total_diff ≤ 50 then "✅ 检测到差异（≤50个词），结果正常"
      else "⚠️ 检测到较大差异（>50个词），建议检查文本内容" := by
  unfold get_recommendation
  rw [hst]
  split_ifs <;> simp_all

/-- C3: The Confidence Classifier is a pure function of the comparison
report evaluated top-to-bottom with first match winning: perfectly
consistent results give the fully-consistent Pass message; else
totalSpread T≤2 and uniqueSpread U≤2 give a Pass; else T≤10 and U≤5 give
a Pass; else T≤50 with any U gives a Pass; and the Warn message is
produced exactly when the report is inconsistent and T>50. -/
theorem confidence_classifier_thresholds (rs : List MethodResult)
    (cmp : Comparison) (h : compare_results rs = some cmp) :
    (cmp.consistent = true →
      get_recommendation cmp = "✅ 三种方法结果完全一致，统计结果可靠") ∧
    (cmp.consistent = false → cmp.total_diff ≤ 2 → cmp.unique_diff ≤ 2 →
      get_recommendation cmp = "✅ 检测到轻微差异（≤2个词），结果可靠") ∧
    (cmp.consistent = false → ¬(cmp.total_diff ≤ 2 ∧ cmp.unique_diff ≤ 2) →
      cmp.total_diff ≤ 10 → cmp.unique_diff ≤ 5 →
      get_recommendation cmp = "✅ 检测到小幅差异（≤10个词），结果可靠") ∧
    (cmp.consistent = false → ¬(cmp.total_diff ≤ 2 ∧ cmp.unique_diff ≤ 2) →
      ¬(cmp.total_diff ≤ 10 ∧ cmp.unique_diff ≤ 5) → cmp.total_diff ≤ 50 →
      get_recommendation cmp = "✅ 检测到差异（≤50个词），结果正常") ∧
    (get_recommendation cmp = "⚠️ 检测到较大差异（>50个词），建议检查文本内容" ↔
      (cmp.consistent = false ∧ 50 < cmp.total_diff)) := by
  have hrec := get_recommendation_cases cmp (status_ite_of_compare rs cmp h)
  rw [hrec]
  refine ⟨?_, ?_, ?_, ?_, ?_, ?_⟩
  · intro hc
    rw [if_pos hc]
  · intro hc h1 h2
    rw [if_neg (by simp [hc]),
      if_pos (show cmp.total_diff ≤ 2 ∧ cmp.unique_diff ≤ 2 from ⟨h1, h2⟩)]
  · intro hc h12 h1 h2
    rw [if_neg (by simp [hc]), if_neg h12,
      if_pos (show cmp.total_diff ≤ 10 ∧ cmp.unique_diff ≤ 5 from ⟨h1, h2⟩)]
  · intro hc h12 h15 h50
    rw [if_neg (by simp [hc]), if_neg h12, if_neg h15, if_pos h50]
  · intro hw
    split_ifs at hw with h1 h2 h3 h4
    · exact absurd hw (by decide)
    · exact absurd hw (by decide)
    · exact absurd hw (by decide)
    · exact absurd hw (by decide)
    · exact ⟨by simp_all, by omega⟩
  · rintro ⟨hc, h50⟩
    rw [if_neg (by simp [hc]), if_neg (by omega), if_neg (by omega),
      if_neg (by omega)]

theorem confidence_classifier_thresholds_witness :
    ∃ cmp : Comparison,
      compare_results [⟨"a", []⟩, ⟨"b", []⟩] = some cmp ∧
      get_recommendation cmp = "✅ 三种方法结果完全一致，统计结果可靠" := by
  refine ⟨_, rfl, ?_⟩
  exact (confidence_classifier_thresholds [⟨"a", []⟩, ⟨"b", []⟩] _ rfl).1 (by decide)

theorem wellFormed_of_words (ws : List (List Char)) :
    WellFormedCounts ws ws.length ws.dedup.length := by
  refine ⟨?_, rfl, ?_⟩
  · rw [← List.sum_map_count_dedup_eq_length ws]
    congr 1
    apply List.map_congr_left
    intro w _
    simp only [List.count_eq_countP]
    apply List.countP_congr
    intro x _
    simp [instBEqOfDecidableEq]
  · intro w hw
    exact List.count_pos_iff.mpr (List.mem_dedup.mp hw)

/-- C5: Every WordCount produced by any of the three strategies (and by
quickCount) is well-formed: totalWords equals the sum of the frequency
table's values, uniqueWords equals the number of keys, every frequency
value is at least 1; and every sorted unique list in the program
(`sorted(keys)`, modelled by `pySorted`) is ordered lexicographically and
is a permutation of the frequency table's keys — in particular
quickCount's `unique_word_list` is. -/
theorem wordcounts_wellformed (t : List Char) :
    WellFormedCounts (count_words_method1 t).word_list
      (count_words_method1 t).total_words (count_words_method1 t).unique_words ∧
    WellFormedCounts (count_words_method2 t).word_list
      (count_words_method2 t).total_words (count_words_method2 t).unique_words ∧
    WellFormedCounts (count_words_method3 t).word_list
      (count_words_method3 t).total_words (count_words_method3 t).unique_words ∧
    WellFormedCounts (analyze_text_quick t).word_freq_list
      (analyze_text_quick t).total_words (analyze_text_quick t).unique_words ∧
    List.Sorted StrLe (analyze_text_quick t).unique_word_list ∧
    (analyze_text_quick t).unique_word_list.Perm
      (analyze_text_quick t).word_freq_list.dedup ∧
    (∀ ws : List (List Char),
      List.Sorted StrLe (pySorted ws) ∧ (pySorted ws).Perm ws) := by
  refine ⟨wellFormed_of_words _, wellFormed_of_words _, wellFormed_of_words _,
    wellFormed_of_words _, ?_, ?_, fun ws => ⟨?_, ?_⟩⟩
  · exact List.sorted_insertionSort StrLe _
  · exact List.perm_insertionSort StrLe _
  · exact List.sorted_insertionSort StrLe _
  · exact List.perm_insertionSort StrLe _

theorem pyMax_three (a b c : Nat) : pyMax [a, b, c] = max a (max b c) := by
  simp only [pyMax, List.foldl]
  exact Nat.max_assoc a b c

theorem pyMaxBy_three (r1 r2 r3 : MethodResult) :
    pyMaxBy [r1, r2, r3] = firstMaxSpec r1 r2 r3 := by
  unfold pyMaxBy firstMaxSpec
  simp only [List.foldl, Nat.max_def]
  split_ifs <;> first | rfl | (exfalso; omega)

theorem verify_text_eq (t : List Char) (rep : Report)
    (h : verify_text t = some rep) :
    ∃ cmp : Comparison,
      compare_results [count_words_method1 t, count_words_method2 t,
        count_words_method3 t] = some cmp ∧
      rep.comparison = cmp ∧
      rep.final_stats = mkFinalStats
        (if cmp.consistent then count_words_method1 t
         else
          if 0 < pyMax (List.map (fun r => r.total_words)
                [count_words_method1 t, count_words_method2 t,
                  count_words_method3 t]) ∧
              pyMax (List.map (fun r => r.total_words)
                [count_words_method1 t, count_words_method2 t,
                  count_words_method3 t]) <
                10 * (pyMax (List.map (fun r => r.total_words)
                  [count_words_method1 t, count_words_method2 t,
                    count_words_method3 t]) -
                  (count_words_method1 t).total_words) then
            pyMaxBy [count_words_method1 t, count_words_method2 t,
              count_words_method3 t]
          else count_words_method1 t) ∧
      rep.results = [count_words_method1 t, count_words_method2 t,
        count_words_method3 t] ∧
      rep.recommendation = get_recommendation cmp ∧
      rep.verified = cmp.consistent := by
  obtain ⟨cmp, hc⟩ := compare_results_three_isSome
    (count_words_method1 t) (count_words_method2 t) (count_words_method3 t)
  simp only [verify_text] at h
  rw [hc] at h
  obtain rfl := Option.some.inj h
  exact ⟨cmp, hc, rfl, rfl, rfl, rfl, rfl⟩

set_option maxHeartbeats 400000 in
/-- C1: For every input text, the Cross-Validator selects Strategy A's
result as canonical by default; only when the three strategies' results
are not consistent AND Strategy A's total word count is more than 10%
lower than the maximum total among the three strategies does it instead
select the strategy with the overall maximum total word count, breaking
ties by taking the first such strategy in evaluation order A, B, C
(`firstMaxSpec`). -/
theorem verify_selection_policy (t : List Char) (rep : Report)
    (h : verify_text t = some rep) :
    (rep.comparison.consistent = true →
      rep.final_stats = mkFinalStats (count_words_method1 t)) ∧
    (rep.comparison.consistent = false →
      10 * (max (count_words_method1 t).total_words
          (max (count_words_method2 t).total_words
            (count_words_method3 t).total_words) -
        (count_words_method1 t).total_words) ≤
        max (count_words_method1 t).total_words
          (max (count_words_method2 t).total_words
            (count_words_method3 t).total_words) →
      rep.final_stats = mkFinalStats (count_words_method1 t)) ∧
    (rep.comparison.consistent = false →
      max (count_words_method1 t).total_words
          (max (count_words_method2 t).total_words
            (count_words_method3 t).total_words) <
        10 * (max (count_words_method1 t).total_words
          (max (count_words_method2 t).total_words
            (count_words_method3 t).total_words) -
          (count_words_method1 t).total_words) →
      rep.final_stats = mkFinalStats (firstMaxSpec (count_words_method1 t)
        (count_words_method2 t) (count_words_method3 t))) := by
  obtain ⟨cmp, _, hcomp, hfinal, -, -, -⟩ := verify_text_eq t rep h
  simp only [List.map] at hfinal
  simp only [pyMax_three, pyMaxBy_three] at hfinal
  rw [hcomp]
  refine ⟨?_, ?_, ?_⟩
  · intro hc
    rw [hfinal, if_pos hc]
  · intro hc hle
    rw [hfinal, if_neg (by simp [hc]), if_neg (by rintro ⟨-, hlt⟩; omega)]
  · intro hc hlt
    rw [hfinal, if_neg (by simp [hc]), if_pos ⟨by omega, hlt⟩]

set_option maxRecDepth 8000 in
theorem verify_selection_policy_witness :
    ∃ rep : Report, verify_text "abc123 def456".data = some rep ∧
      rep.final_stats = mkFinalStats (firstMaxSpec
        (count_words_method1 "abc123 def456".data)
        (count_words_method2 "abc123 def456".data)
        (count_words_method3 "abc123 def456".data)) ∧
      rep.final_stats.selected_method = "方法2 (分割过滤)" := by
  have h : verify_text "abc123 def456".data =
      some ((verify_text "abc123 def456".data).getD
        ⟨[], ⟨"", false, [], 0, 0, 0, [], 0, 0, 0⟩, "", ⟨0, 0, [], [], ""⟩,
          false⟩) := by decide
  refine ⟨_, h, ?_, by decide⟩
  exact (verify_selection_policy "abc123 def456".data _ h).2.2
    (by decide) (by decide)

theorem dropWhile_head_false (p : Char → Bool) :
    ∀ (l : List Char) (d : Char) (ds : List Char),
      l.dropWhile p = d :: ds → p d = false
  | [], _, _, h => by simp at h
  | c :: l, d, ds, h => by
    rw [List.dropWhile_cons] at h
    split at h
    · exact dropWhile_head_false p l d ds h
    · obtain ⟨rfl, -⟩ := List.cons.inj h
      simp_all

theorem mem_of_mem_dropWhile (p : Char → Bool) :
    ∀ (l : List Char) (d : Char), d ∈ l.dropWhile p → d ∈ l
  | [], _, h => by simp at h
  | c :: l, d, h => by
    rw [List.dropWhile_cons] at h
    split at h
    · exact List.mem_cons_of_mem c (mem_of_mem_dropWhile p l d h)
    · exact h

theorem alphaRunsB_eq_alphaRuns :
    ∀ (n : Nat) (t : List Char), t.length ≤ n → ∀ (prev : Option Char),
      (∀ c ∈ t, c.isDigit = false ∧ c ≠ '_') →
      (∀ c, t.head? = some c → c.isAlpha = true → bprev prev = true) →
      alphaRunsB prev t = alphaRuns t
  | _, [], _, _, _, _ => rfl
  | n + 1, c :: rest, ht, prev, hchars, hp => by
    simp only [List.length_cons] at ht
    have hd := length_dropWhile_le Char.isAlpha rest
    rw [alphaRunsB_cons, alphaRuns_cons]
    by_cases hc : c.isAlpha = true
    · rw [if_pos hc, if_pos hc]
      have hb : bprev prev = true := hp c rfl hc
      have hnw : notWordAt (rest.dropWhile Char.isAlpha) = true := by
        cases hm : rest.dropWhile Char.isAlpha with
        | nil => rfl
        | cons d ds =>
          have hda : d.isAlpha = false := dropWhile_head_false Char.isAlpha rest d ds hm
          have hdm : d ∈ rest :=
            mem_of_mem_dropWhile Char.isAlpha rest d (by rw [hm]; exact List.mem_cons_self d ds)
          obtain ⟨hdd, hdu⟩ := hchars d (List.mem_cons_of_mem c hdm)
          simp [notWordAt, isWordChar, hda, hdd, hdu]
      rw [hb, hnw]
      simp only [Bool.and_self, if_true, List.singleton_append]
      congr 1
      refine alphaRunsB_eq_alphaRuns n (rest.dropWhile Char.isAlpha) (by omega) _ ?_ ?_
      · intro x hx
        exact hchars x (List.mem_cons_of_mem c (mem_of_mem_dropWhile Char.isAlpha rest x hx))
      · intro x hx hxa
        cases hm : rest.dropWhile Char.isAlpha with
        | nil => rw [hm] at hx; simp at hx
        | cons d ds =>
          rw [hm] at hx
          simp only [List.head?_cons, Option.some.injEq] at hx
          have hda := dropWhile_head_false Char.isAlpha rest d ds hm
          rw [← hx, hda] at hxa
          exact absurd hxa (by simp)
    · rw [if_neg hc, if_neg hc]
      refine alphaRunsB_eq_alphaRuns n rest (by omega) (some c) ?_ ?_
      · intro x hx
        exact hchars x (List.mem_cons_of_mem c hx)
      · intro x _ _
        obtain ⟨hcd, hcu⟩ := hchars c (List.mem_cons_self c rest)
        simp [bprev, isWordChar, hc, hcd, hcu]

theorem alphaRuns_mem_ne_nil :
    ∀ (n : Nat) (t : List Char), t.length ≤ n → ∀ w ∈ alphaRuns t, w ≠ []
  | _, [], _, w, hw => by simp [alphaRuns_nil] at hw
  | n + 1, c :: rest, ht, w, hw => by
    simp only [List.length_cons] at ht
    have hd := length_dropWhile_le Char.isAlpha rest
    rw [alphaRuns_cons] at hw
    by_cases hc : c.isAlpha = true
    · rw [if_pos hc] at hw
      rcases List.mem_cons.mp hw with rfl | hw'
      · simp
      · exact alphaRuns_mem_ne_nil n (rest.dropWhile Char.isAlpha) (by omega) w hw'
    · rw [if_neg hc] at hw
      exact alphaRuns_mem_ne_nil n rest (by omega) w hw

theorem quick_count_method3_counterexample :
    (analyze_text_quick "abc123".data).total_words = 0 ∧
    (count_words_method3 "abc123".data).total_words = 1 ∧
    (analyze_text_quick "abc123".data).total_words ≠
      (count_words_method3 "abc123".data).total_words := by
  decide

/-- C2 (amended): quickCount (the `enable_verification=False` branch of
`analyze_text`) tokenizes with `\b[a-zA-Z]+\b` — boundary-delimited
alphabetic runs — not with Strategy C's digit-stripped `[a-zA-Z]+` global
scan; on every text containing no digit and no underscore characters the
two produce exactly the same WordCount (same totalWords, uniqueWords,
frequency table, and sorted unique list). -/
theorem quick_count_eq_method3_of_plain (t : List Char)
    (h : ∀ c ∈ t, c.isDigit = false ∧ c ≠ '_') :
    (analyze_text_quick t).word_freq_list = (count_words_method3 t).word_list ∧
    (analyze_text_quick t).total_words = (count_words_method3 t).total_words ∧
    (analyze_text_quick t).unique_words = (count_words_method3 t).unique_words ∧
    (∀ w, (analyze_text_quick t).word_freq_list.count w =
      (count_words_method3 t).word_list.count w) ∧
    (analyze_text_quick t).unique_word_list =
      pySorted (count_words_method3 t).word_list.dedup := by
  have hru : alphaRunsB none t = alphaRuns t :=
    alphaRunsB_eq_alphaRuns t.length t le_rfl none h (by intro c _ _; rfl)
  have hfil : t.filter (fun c => !c.isDigit) = t := by
    apply List.filter_eq_self.mpr
    intro c hc
    simp [(h c hc).1]
  have hnn : (alphaRuns t).filter (fun w => decide (0 < w.length)) = alphaRuns t := by
    apply List.filter_eq_self.mpr
    intro w hw
    have hne := alphaRuns_mem_ne_nil t.length t le_rfl w hw
    simp [List.length_pos, hne]
  have hwl : (analyze_text_quick t).word_freq_list =
      (count_words_method3 t).word_list := by
    show (alphaRunsB none t).map (fun w => w.map Char.toLower) =
      ((alphaRuns (t.filter fun c => !c.isDigit)).filter
        (fun w => decide (0 < w.length))).map (fun w => w.map Char.toLower)
    rw [hru, hfil, hnn]
  refine ⟨hwl, congrArg List.length hwl, ?_, fun w => ?_, ?_⟩
  · exact congrArg (fun l : List (List Char) => l.dedup.length) hwl
  · exact congrArg (fun l : List (List Char) => l.count w) hwl
  · exact congrArg (fun l : List (List Char) => pySorted l.dedup) hwl

theorem quick_count_eq_method3_of_plain_witness :
    (∀ c ∈ "hello world".data, c.isDigit = false ∧ c ≠ '_') ∧
    (analyze_text_quick "hello world".data).total_words =
      (count_words_method3 "hello world".data).total_words :=
  ⟨by decide, (quick_count_eq_method3_of_plain "hello world".data (by decide)).2.1⟩


theorem lcAlpha_toNat {c : Char} (h : lcAlpha c = true) : 97 ≤ c.toNat ∧ c.toNat ≤ 122 := by
  simp only [lcAlpha, Bool.and_eq_true, decide_eq_true_eq] at h
  obtain ⟨h1, h2⟩ := h
  rw [Char.le_def] at h1 h2
  exact ⟨h1, h2⟩

theorem lc_isAlpha {c : Char} (h : lcAlpha c = true) : c.isAlpha = true := by
  obtain ⟨h1, h2⟩ := lcAlpha_toNat h
  simp only [Char.isAlpha, Char.isLower, Char.isUpper, Bool.or_eq_true, Bool.and_eq_true,
    decide_eq_true_eq]
  right
  exact ⟨h1, h2⟩

theorem lc_ne {c : Char} (h : lcAlpha c = true) (d : Char)
    (hd : d.toNat < 97 ∨ 122 < d.toNat) : c ≠ d := by
  obtain ⟨h1, h2⟩ := lcAlpha_toNat h
  intro he
  subst he
  omega

theorem lc_isDigit {c : Char} (h : lcAlpha c = true) : c.isDigit = false := by
  obtain ⟨h1, h2⟩ := lcAlpha_toNat h
  show (decide (c.val ≥ 48) && decide (c.val ≤ 57)) = false
  have hd : (decide (c.val ≤ 57)) = false :=
    decide_eq_false (fun hle => by have h3 : c.toNat ≤ 57 := hle; omega)
  rw [hd, Bool.and_false]

theorem lc_isWordChar {c : Char} (h : lcAlpha c = true) : isWordChar c = true := by
  unfold isWordChar
  rw [lc_isAlpha h]
  simp

theorem lc_toLower {c : Char} (h : lcAlpha c = true) : c.toLower = c := by
  obtain ⟨h1, h2⟩ := lcAlpha_toNat h
  unfold Char.toLower
  rw [if_neg (by omega)]

theorem toLower_eq_self_of_not_upper {c : Char} (h : ¬(65 ≤ c.toNat ∧ c.toNat ≤ 90)) :
    c.toLower = c := by
  unfold Char.toLower
  rw [if_neg h]

theorem toLower_toNat_upper {c : Char} (h : 65 ≤ c.toNat ∧ c.toNat ≤ 90) :
    c.toLower.toNat = c.toNat + 32 := by
  unfold Char.toLower
  rw [if_pos h]
  unfold Char.ofNat
  rw [dif_pos (by unfold Nat.isValidChar; omega)]
  rfl

theorem toLower_eq_apos {c : Char} (h : c.toLower = '\x27') : c = '\x27' := by
  by_cases hu : 65 ≤ c.toNat ∧ c.toNat ≤ 90
  · have h1 := toLower_toNat_upper hu
    rw [h] at h1
    have h39 : ('\x27' : Char).toNat = 39 := rfl
    omega
  · rw [toLower_eq_self_of_not_upper hu] at h
    exact h

theorem lc_not_space {c : Char} (h : lcAlpha c = true) : pyIsSpace c = false := by
  have n1 : c ≠ ' ' := lc_ne h ' ' (by decide)
  have n2 : c ≠ '\t' := lc_ne h '\t' (by decide)
  have n3 : c ≠ '\n' := lc_ne h '\n' (by decide)
  have n4 : c ≠ '\r' := lc_ne h '\r' (by decide)
  have n5 : c ≠ '\x0b' := lc_ne h '\x0b' (by decide)
  have n6 : c ≠ '\x0c' := lc_ne h '\x0c' (by decide)
  simp [pyIsSpace, n1, n2, n3, n4, n5, n6]

theorem lc_not_strip {c : Char} (h : lcAlpha c = true) : stripSet.contains c = false := by
  have hmem : c ∉ stripSet := by
    intro hc
    have hall : ∀ d ∈ stripSet, d.toNat < 97 ∨ 122 < d.toNat := by decide
    obtain ⟨h1, h2⟩ := lcAlpha_toNat h
    rcases hall c hc with h3 | h3 <;> omega
  simpa using hmem

theorem matchCI_mem_apos :
    ∀ (k s : List Char), matchCI k s = true → '\x27' ∈ k → '\x27' ∈ s
  | [], _, _, hk => by simp at hk
  | _ :: _, [], hm, _ => by simp [matchCI] at hm
  | kc :: ks, c :: cs, hm, hk => by
    simp only [matchCI, Bool.and_eq_true, decide_eq_true_eq] at hm
    obtain ⟨h1, h2⟩ := hm
    rcases List.mem_cons.mp hk with rfl | hk'
    · have : c.toLower = '\x27' := by rw [← h1]; rfl
      rw [toLower_eq_apos this]
      exact List.mem_cons_self _ _
    · exact List.mem_cons_of_mem c (matchCI_mem_apos ks cs h2 hk')

theorem subWordCI_id_of_apos_key :
    ∀ (n : Nat) (s : List Char), s.length ≤ n →
      ∀ (key expn : List Char) (prev : Option Char),
        '\x27' ∈ key → (∀ c ∈ s, c ≠ '\x27') → subWordCI key expn prev s = s
  | _, [], _, _, _, _, _, _ => rfl
  | n + 1, c :: rest, hlen, key, expn, prev, hk, hs => by
    simp only [List.length_cons] at hlen
    rw [subWordCI_cons, if_neg ?hcond]
    case hcond =>
      rintro ⟨-, -, hm, -⟩
      exact hs _ (matchCI_mem_apos key _ hm hk) rfl
    congr 1
    exact subWordCI_id_of_apos_key n rest (by omega) key expn (some c) hk
      (fun x hx => hs x (List.mem_cons_of_mem c hx))

theorem possHit_eq_false_of_head_ne {d : Char} (ds : List Char)
    (hd : d ≠ '\x27') : possHit (d :: ds) = false := by
  unfold possHit
  split
  · rename_i heq
    obtain ⟨rfl, -⟩ := List.cons.inj heq
    exact absurd rfl hd
  · rfl

theorem possStrip_id_of_no_apos :
    ∀ (n : Nat) (s : List Char), s.length ≤ n → ∀ (prev : Option Char),
      (∀ c ∈ s, c ≠ '\x27') → possStrip prev s = s
  | _, [], _, _, _ => rfl
  | n + 1, c :: rest, hlen, prev, hs => by
    simp only [List.length_cons] at hlen
    have hdl := length_dropWhile_le Char.isAlpha rest
    rw [possStrip_cons]
    by_cases hcb : (c.isAlpha && bprev prev) = true
    · rw [if_pos hcb]
      have hhit : possHit (rest.dropWhile Char.isAlpha) = false := by
        cases hm : rest.dropWhile Char.isAlpha with
        | nil => rfl
        | cons d ds =>
          have hdm : d ∈ rest := mem_of_mem_dropWhile Char.isAlpha rest d
            (by rw [hm]; exact List.mem_cons_self d ds)
          exact possHit_eq_false_of_head_ne ds (hs d (List.mem_cons_of_mem c hdm))
      rw [hhit, if_neg (by simp)]
      rw [possStrip_id_of_no_apos n (rest.dropWhile Char.isAlpha) (by omega) _
        (fun x hx => hs x (List.mem_cons_of_mem c (mem_of_mem_dropWhile Char.isAlpha rest x hx)))]
      rw [show (c :: rest.takeWhile Char.isAlpha) ++ rest.dropWhile Char.isAlpha =
        c :: (rest.takeWhile Char.isAlpha ++ rest.dropWhile Char.isAlpha) from rfl,
        List.takeWhile_append_dropWhile]
    · rw [if_neg hcb]
      congr 1
      exact possStrip_id_of_no_apos n rest (by omega) (some c)
        (fun x hx => hs x (List.mem_cons_of_mem c hx))

theorem foldl_subs_id_of_apos_keys :
    ∀ (entries : List (List Char × List (List Char))),
      (∀ kv ∈ entries, '\x27' ∈ kv.1) → ∀ (s : List Char),
      (∀ c ∈ s, c ≠ '\x27') →
      entries.foldl (fun acc kv => subWordCI kv.1 (joinWords kv.2) none acc) s = s
  | [], _, _, _ => rfl
  | kv :: entries, hk, s, hs => by
    simp only [List.foldl_cons]
    rw [subWordCI_id_of_apos_key s.length s le_rfl kv.1 (joinWords kv.2) none
      (hk kv (List.mem_cons_self kv entries)) hs]
    exact foldl_subs_id_of_apos_keys entries
      (fun x hx => hk x (List.mem_cons_of_mem kv hx)) s hs

theorem matchCI_append_self : ∀ (k s : List Char), matchCI k (k ++ s) = true
  | [], _ => rfl
  | kc :: ks, s => by
    show (decide (kc.toLower = kc.toLower) && matchCI ks (ks ++ s)) = true
    rw [matchCI_append_self ks s]
    simp

theorem matchCI_eq_take :
    ∀ (k s : List Char), matchCI k s = true →
      (s.take k.length).map Char.toLower = k.map Char.toLower ∧ k.length ≤ s.length
  | [], s, _ => by simp
  | _ :: _, [], hm => by simp [matchCI] at hm
  | kc :: ks, c :: cs, hm => by
    simp only [matchCI, Bool.and_eq_true, decide_eq_true_eq] at hm
    obtain ⟨h1, h2⟩ := hm
    obtain ⟨ih1, ih2⟩ := matchCI_eq_take ks cs h2
    simp only [List.length_cons, List.take_succ_cons, List.map_cons]
    exact ⟨by rw [ih1, h1], by omega⟩

theorem map_toLower_lc {l : List Char} (h : ∀ c ∈ l, lcAlpha c = true) :
    l.map Char.toLower = l := by
  rw [show l.map Char.toLower = l.map id from
    List.map_congr_left (fun c hc => lc_toLower (h c hc)), List.map_id]

theorem takeWhile_all_append (p : Char → Bool) :
    ∀ (v l : List Char), (∀ c ∈ v, p c = true) →
      (v ++ l).takeWhile p = v ++ l.takeWhile p
  | [], l, _ => rfl
  | c :: v, l, hv => by
    simp only [List.cons_append, List.takeWhile_cons,
      hv c (List.mem_cons_self c v), if_true]
    rw [takeWhile_all_append p v l (fun x hx => hv x (List.mem_cons_of_mem c hx))]

theorem dropWhile_all_append (p : Char → Bool) :
    ∀ (v l : List Char), (∀ c ∈ v, p c = true) →
      (v ++ l).dropWhile p = l.dropWhile p
  | [], l, _ => rfl
  | c :: v, l, hv => by
    simp only [List.cons_append, List.dropWhile_cons,
      hv c (List.mem_cons_self c v), if_true]
    exact dropWhile_all_append p v l (fun x hx => hv x (List.mem_cons_of_mem c hx))

theorem mem_joinWords :
    ∀ (ws : List (List Char)) (c : Char), c ∈ joinWords ws →
      (∃ w ∈ ws, c ∈ w) ∨ c = ' '
  | [], c, h => by simp [joinWords] at h
  | [w], c, h => by
    left
    exact ⟨w, List.mem_cons_self w [], h⟩
  | w :: v :: ws, c, h => by
    simp only [joinWords, List.mem_append, List.mem_cons] at h
    rcases h with h | h | h
    · exact Or.inl ⟨w, List.mem_cons_self w _, h⟩
    · exact Or.inr h
    · rcases mem_joinWords (v :: ws) c h with ⟨u, hu, hcu⟩ | hsp
      · exact Or.inl ⟨u, List.mem_cons_of_mem w hu, hcu⟩
      · exact Or.inr hsp

theorem joinWords_append :
    ∀ (xs ys : List (List Char)), xs ≠ [] → ys ≠ [] →
      joinWords (xs ++ ys) = joinWords xs ++ ' ' :: joinWords ys
  | [], _, hx, _ => absurd rfl hx
  | [x], ys, _, hy => by
    cases ys with
    | nil => exact absurd rfl hy
    | cons y ys' => rfl
  | x :: x' :: xs, ys, _, hy => by
    have ih := joinWords_append (x' :: xs) ys (by simp) hy
    show x ++ ' ' :: joinWords ((x' :: xs) ++ ys) =
      (x ++ ' ' :: joinWords (x' :: xs)) ++ ' ' :: joinWords ys
    rw [ih]
    simp [List.append_assoc]

theorem cannot_no_match (w rest : List Char) (hw : PlainWord w)
    (hr : rest = [] ∨ ∃ r', rest = ' ' :: r') (hne : w ≠ "cannot".data)
    (prev : Option Char) :
    ¬ subCond ("cannot".data) prev (w ++ rest) := by
  rintro ⟨-, -, hm, hnw⟩
  obtain ⟨htake, hlen⟩ := matchCI_eq_take "cannot".data (w ++ rest) hm
  rw [show ("cannot".data).map Char.toLower = "cannot".data from by decide] at htake
  rw [show ("cannot".data).length = 6 from rfl] at htake hlen
  rw [show ("cannot".data).length = 6 from rfl] at hnw
  obtain ⟨hne0, hlc⟩ := hw
  by_cases h6 : 6 ≤ w.length
  · rw [List.take_append_eq_append_take, show (6 - w.length) = 0 from by omega,
      List.take_zero, List.append_nil] at htake
    have hmap : (w.take 6).map Char.toLower = w.take 6 :=
      map_toLower_lc (fun c hc => hlc c (List.mem_of_mem_take hc))
    rw [hmap] at htake
    by_cases h6' : w.length = 6
    · rw [List.take_of_length_le (by omega)] at htake
      exact hne htake
    · have hd6 : (w.drop 6).length = w.length - 6 := List.length_drop 6 w
      cases hdw : w.drop 6 with
      | nil => rw [hdw] at hd6; simp at hd6; omega
      | cons d ds =>
        have hdm : d ∈ w :=
          List.mem_of_mem_drop (by rw [hdw]; exact List.mem_cons_self d ds)
        rw [List.drop_append_eq_append_drop, show (6 - w.length) = 0 from by omega,
          List.drop_zero, hdw] at hnw
        simp only [List.cons_append, notWordAt] at hnw
        rw [lc_isWordChar (hlc d hdm)] at hnw
        simp at hnw
  · push_neg at h6
    rcases hr with rfl | ⟨r', rfl⟩
    · rw [List.append_nil] at hlen; omega
    · have hsp : (' ' : Char) ∈ ((w ++ ' ' :: r').take 6) := by
        rw [List.take_append_eq_append_take, List.take_of_length_le (by omega)]
        refine List.mem_append_right w ?_
        rw [show (6 - w.length) = (5 - w.length) + 1 from by omega]
        simp [List.take_succ_cons]
      have hmem := List.mem_map_of_mem Char.toLower hsp
      rw [htake] at hmem
      rw [show Char.toLower ' ' = ' ' from by decide] at hmem
      exact absurd hmem (by decide)

theorem subWordCI_wordrun (key expn : List Char) :
    ∀ (v : List Char) (p : Char) (rest : List Char),
      isWordChar p = true → (∀ c ∈ v, isWordChar c = true) →
      subWordCI key expn (some p) (v ++ rest) =
        v ++ subWordCI key expn (some (v.getLastD p)) rest
  | [], p, rest, _, _ => rfl
  | c :: v, p, rest, hp, hv => by
    simp only [List.cons_append]
    rw [subWordCI_cons, if_neg ?hc]
    case hc =>
      rintro ⟨-, hb, -, -⟩
      rw [show bprev (some p) = !isWordChar p from rfl, hp] at hb
      simp at hb
    rw [subWordCI_wordrun key expn v c rest (hv c (List.mem_cons_self c v))
      (fun x hx => hv x (List.mem_cons_of_mem c hx))]
    rw [List.getLastD_cons]

theorem subWordCI_cannot_word (w rest : List Char) (hw : PlainWord w)
    (hr : rest = [] ∨ ∃ r', rest = ' ' :: r') (prev : Option Char)
    (hprev : bprev prev = true) :
    ∃ p' : Char, isWordChar p' = true ∧
      subWordCI "cannot".data "can not".data prev (w ++ rest) =
        cannotRepl w ++ subWordCI "cannot".data "can not".data (some p') rest := by
  by_cases hck : w = "cannot".data
  · subst hck
    refine ⟨'t', by decide, ?_⟩
    have e1 : ("cannot".data ++ rest).drop ("cannot".data).length = rest := rfl
    have e2 : (("cannot".data ++ rest).take ("cannot".data).length).getLastD 'c' = 't' := rfl
    rw [show ("cannot".data ++ rest) = 'c' :: ("annot".data ++ rest) from rfl]
    rw [subWordCI_cons, if_pos ⟨by decide, hprev,
      matchCI_append_self "cannot".data rest, by
        rw [show ('c' :: ("annot".data ++ rest)).drop ("cannot".data).length = rest from rfl]
        rcases hr with rfl | ⟨r', rfl⟩ <;> rfl⟩]
    rw [show (('c' :: ("annot".data ++ rest)).take ("cannot".data).length).getLastD 'c' = 't'
      from rfl]
    rw [show ('c' :: ("annot".data ++ rest)).drop ("cannot".data).length = rest from rfl]
    rfl
  · obtain ⟨hne0, hlc⟩ := hw
    cases w with
    | nil => exact absurd rfl hne0
    | cons c w' =>
      have hlc' : ∀ x ∈ c :: w', lcAlpha x = true := hlc
      have hnomatch := cannot_no_match (c :: w') rest ⟨hne0, hlc'⟩ hr hck prev
      refine ⟨w'.getLastD c, ?_, ?_⟩
      · exact lc_isWordChar (hlc' _ (List.getLastD_mem_cons w' c))
      · simp only [List.cons_append]
        rw [subWordCI_cons, if_neg (show ¬ subCond "cannot".data prev (c :: (w' ++ rest))
          from fun hcond => hnomatch hcond)]
        rw [subWordCI_wordrun "cannot".data "can not".data w' c rest
          (lc_isWordChar (hlc' c (List.mem_cons_self c w')))
          (fun x hx => lc_isWordChar (hlc' x (List.mem_cons_of_mem c hx)))]
        rw [show cannotRepl (c :: w') = c :: w' from by unfold cannotRepl; rw [if_neg hck]]
        rfl

theorem subWordCI_cannot_joinWords :
    ∀ (ws : List (List Char)), (∀ w ∈ ws, PlainWord w) →
      ∀ (prev : Option Char), bprev prev = true →
      subWordCI "cannot".data "can not".data prev (joinWords ws) =
        joinWords (ws.map cannotRepl)
  | [], _, _, _ => rfl
  | [w], hws, prev, hprev => by
    have hw := hws w (List.mem_cons_self w [])
    obtain ⟨p', -, he⟩ := subWordCI_cannot_word w [] hw (Or.inl rfl) prev hprev
    rw [List.append_nil] at he
    show subWordCI "cannot".data "can not".data prev w = cannotRepl w
    rw [he, subWordCI_nil, List.append_nil]
  | w :: v :: ws, hws, prev, hprev => by
    have hw := hws w (List.mem_cons_self _ _)
    obtain ⟨p', hp', he⟩ := subWordCI_cannot_word w (' ' :: joinWords (v :: ws)) hw
      (Or.inr ⟨_, rfl⟩) prev hprev
    rw [show joinWords (w :: v :: ws) = w ++ ' ' :: joinWords (v :: ws) from rfl, he]
    rw [subWordCI_cons, if_neg ?hsp]
    case hsp =>
      rintro ⟨-, -, hm, -⟩
      exact Bool.false_ne_true hm
    rw [subWordCI_cannot_joinWords (v :: ws)
      (fun x hx => hws x (List.mem_cons_of_mem w hx)) (some ' ') (by decide)]
    rfl

theorem takeWhile_all (p : Char → Bool) (l : List Char) (h : ∀ c ∈ l, p c = true) :
    l.takeWhile p = l := by
  have h2 := takeWhile_all_append p l [] h
  simpa using h2

theorem dropWhile_all (p : Char → Bool) (l : List Char) (h : ∀ c ∈ l, p c = true) :
    l.dropWhile p = [] := by
  have h2 := dropWhile_all_append p l [] h
  simpa using h2

theorem expand_contractions_joinWords (ws : List (List Char))
    (hws : ∀ w ∈ ws, PlainWord w) :
    expand_contractions (joinWords ws) = joinWords (ws.map cannotRepl) := by
  have hnoapos : ∀ c ∈ joinWords ws, c ≠ '\x27' := by
    intro c hc
    rcases mem_joinWords ws c hc with ⟨w, hw, hcw⟩ | rfl
    · exact lc_ne ((hws w hw).2 c hcw) _ (by decide)
    · decide
  have hnoapos2 : ∀ c ∈ joinWords (ws.map cannotRepl), c ≠ '\x27' := by
    intro c hc
    rcases mem_joinWords _ c hc with ⟨w, hw, hcw⟩ | rfl
    · obtain ⟨w0, hw0, rfl⟩ := List.mem_map.mp hw
      unfold cannotRepl at hcw
      split at hcw
      · exact (by decide : ∀ x ∈ "can not".data, x ≠ '\x27') c hcw
      · exact lc_ne ((hws w0 hw0).2 c hcw) _ (by decide)
    · decide
  unfold expand_contractions
  rw [show STANDARD_CONTRACTIONS =
      (STANDARD_CONTRACTIONS.take 38) ++
        ("cannot".data, ["can".data, "not".data]) :: (STANDARD_CONTRACTIONS.drop 39)
    from by decide]
  rw [List.foldl_append]
  rw [foldl_subs_id_of_apos_keys (STANDARD_CONTRACTIONS.take 38) (by decide) _ hnoapos]
  simp only [List.foldl_cons]
  rw [show joinWords ["can".data, "not".data] = "can not".data from rfl]
  rw [subWordCI_cannot_joinWords ws hws none rfl]
  rw [foldl_subs_id_of_apos_keys (STANDARD_CONTRACTIONS.drop 39) (by decide) _ hnoapos2]
  exact possStrip_id_of_no_apos (joinWords (ws.map cannotRepl)).length _ le_rfl none hnoapos2

theorem alphaRunsB_joinWords :
    ∀ (vs : List (List Char)), (∀ w ∈ vs, PlainWord w) →
      ∀ (prev : Option Char), bprev prev = true →
      alphaRunsB prev (joinWords vs) = vs
  | [], _, _, _ => rfl
  | [w], hvs, prev, hprev => by
    obtain ⟨hne, hlc⟩ := hvs w (List.mem_cons_self w [])
    cases w with
    | nil => exact absurd rfl hne
    | cons c w' =>
      show alphaRunsB prev (c :: w') = [c :: w']
      rw [alphaRunsB_cons, if_pos (lc_isAlpha (hlc c (List.mem_cons_self c w')))]
      rw [takeWhile_all Char.isAlpha w'
          (fun x hx => lc_isAlpha (hlc x (List.mem_cons_of_mem c hx))),
        dropWhile_all Char.isAlpha w'
          (fun x hx => lc_isAlpha (hlc x (List.mem_cons_of_mem c hx)))]
      rw [hprev]
      simp [notWordAt, alphaRunsB_nil]
  | w :: v :: vs, hvs, prev, hprev => by
    obtain ⟨hne, hlc⟩ := hvs w (List.mem_cons_self _ _)
    cases w with
    | nil => exact absurd rfl hne
    | cons c w' =>
      have hall : ∀ x ∈ w', Char.isAlpha x = true :=
        fun x hx => lc_isAlpha (hlc x (List.mem_cons_of_mem c hx))
      show alphaRunsB prev (c :: (w' ++ ' ' :: joinWords (v :: vs))) = (c :: w') :: v :: vs
      rw [alphaRunsB_cons, if_pos (lc_isAlpha (hlc c (List.mem_cons_self c w')))]
      rw [takeWhile_all_append Char.isAlpha w' (' ' :: joinWords (v :: vs)) hall,
        dropWhile_all_append Char.isAlpha w' (' ' :: joinWords (v :: vs)) hall]
      rw [show (' ' :: joinWords (v :: vs)).takeWhile Char.isAlpha = [] from rfl]
      rw [show (' ' :: joinWords (v :: vs)).dropWhile Char.isAlpha =
        ' ' :: joinWords (v :: vs) from rfl]
      rw [hprev, show notWordAt (' ' :: joinWords (v :: vs)) = true from rfl]
      rw [alphaRunsB_cons, if_neg (show ¬(Char.isAlpha ' ' = true) from by decide)]
      rw [alphaRunsB_joinWords (v :: vs)
        (fun x hx => hvs x (List.mem_cons_of_mem _ hx)) (some ' ') (by decide)]
      simp

theorem alphaRuns_joinWords :
    ∀ (vs : List (List Char)), (∀ w ∈ vs, PlainWord w) →
      alphaRuns (joinWords vs) = vs
  | [], _ => rfl
  | [w], hvs => by
    obtain ⟨hne, hlc⟩ := hvs w (List.mem_cons_self w [])
    cases w with
    | nil => exact absurd rfl hne
    | cons c w' =>
      show alphaRuns (c :: w') = [c :: w']
      rw [alphaRuns_cons, if_pos (lc_isAlpha (hlc c (List.mem_cons_self c w')))]
      rw [takeWhile_all Char.isAlpha w'
          (fun x hx => lc_isAlpha (hlc x (List.mem_cons_of_mem c hx))),
        dropWhile_all Char.isAlpha w'
          (fun x hx => lc_isAlpha (hlc x (List.mem_cons_of_mem c hx)))]
      rw [alphaRuns_nil]
  | w :: v :: vs, hvs => by
    obtain ⟨hne, hlc⟩ := hvs w (List.mem_cons_self _ _)
    cases w with
    | nil => exact absurd rfl hne
    | cons c w' =>
      have hall : ∀ x ∈ w', Char.isAlpha x = true :=
        fun x hx => lc_isAlpha (hlc x (List.mem_cons_of_mem c hx))
      show alphaRuns (c :: (w' ++ ' ' :: joinWords (v :: vs))) = (c :: w') :: v :: vs
      rw [alphaRuns_cons, if_pos (lc_isAlpha (hlc c (List.mem_cons_self c w')))]
      rw [takeWhile_all_append Char.isAlpha w' (' ' :: joinWords (v :: vs)) hall,
        dropWhile_all_append Char.isAlpha w' (' ' :: joinWords (v :: vs)) hall]
      rw [show (' ' :: joinWords (v :: vs)).takeWhile Char.isAlpha = [] from rfl]
      rw [show (' ' :: joinWords (v :: vs)).dropWhile Char.isAlpha =
        ' ' :: joinWords (v :: vs) from rfl]
      rw [alphaRuns_cons, if_neg (show ¬(Char.isAlpha ' ' = true) from by decide)]
      rw [alphaRuns_joinWords (v :: vs) (fun x hx => hvs x (List.mem_cons_of_mem _ hx))]
      simp

theorem joinWords_cannotExp (w : List Char) : joinWords (cannotExp w) = cannotRepl w := by
  unfold cannotExp cannotRepl
  split <;> rfl

theorem cannotExp_ne_nil (w : List Char) : cannotExp w ≠ [] := by
  unfold cannotExp
  split <;> simp

theorem joinWords_cannotRepl_bind :
    ∀ ws : List (List Char),
      joinWords (ws.map cannotRepl) = joinWords (ws.flatMap cannotExp)
  | [] => rfl
  | [w] => by
    show joinWords [cannotRepl w] = joinWords (cannotExp w ++ [])
    rw [List.append_nil, joinWords_cannotExp]
    rfl
  | w :: v :: ws => by
    have ih := joinWords_cannotRepl_bind (v :: ws)
    show joinWords (cannotRepl w :: (v :: ws).map cannotRepl) =
      joinWords (cannotExp w ++ (v :: ws).flatMap cannotExp)
    rw [joinWords_append (cannotExp w) ((v :: ws).flatMap cannotExp) (cannotExp_ne_nil w)
      (by rw [List.flatMap_cons]; simp [cannotExp_ne_nil v])]
    rw [joinWords_cannotExp, ← ih]
    rfl

theorem bind_cannotExp_plain (ws : List (List Char)) (hws : ∀ w ∈ ws, PlainWord w) :
    ∀ w ∈ ws.flatMap cannotExp, PlainWord w := by
  intro w hw
  rw [List.mem_flatMap] at hw
  obtain ⟨w0, hw0, hwexp⟩ := hw
  unfold cannotExp at hwexp
  split at hwexp
  · simp only [List.mem_cons, List.mem_singleton, List.not_mem_nil, or_false] at hwexp
    rcases hwexp with rfl | rfl
    · exact ⟨by simp, by decide⟩
    · exact ⟨by simp, by decide⟩
  · simp only [List.mem_singleton] at hwexp
    subst hwexp
    exact hws _ hw0

theorem map_map_toLower_plain (vs : List (List Char))
    (h : ∀ w ∈ vs, PlainWord w) :
    vs.map (fun w => w.map Char.toLower) = vs := by
  rw [show vs.map (fun w => w.map Char.toLower) = vs.map id from
    List.map_congr_left (fun w hw => map_toLower_lc (fun c hc => (h w hw).2 c hc))]
  exact List.map_id vs

theorem method1_word_list (t : List Char) :
    (count_words_method1 t).word_list =
      (alphaRunsB none (expand_contractions t)).map (fun w => w.map Char.toLower) := by
  simp only [count_words_method1, extract_words_with_smart_contractions]

theorem method1_tokens (ws : List (List Char)) (hws : ∀ w ∈ ws, PlainWord w) :
    (count_words_method1 (joinWords ws)).word_list = ws.flatMap cannotExp := by
  rw [method1_word_list]
  rw [expand_contractions_joinWords ws hws, joinWords_cannotRepl_bind ws]
  rw [alphaRunsB_joinWords (ws.flatMap cannotExp) (bind_cannotExp_plain ws hws) none rfl]
  exact map_map_toLower_plain _ (bind_cannotExp_plain ws hws)

theorem method3_tokens (ws : List (List Char)) (hws : ∀ w ∈ ws, PlainWord w) :
    (count_words_method3 (joinWords ws)).word_list = ws := by
  show ((alphaRuns ((joinWords ws).filter (fun c => !c.isDigit))).filter
      (fun w => decide (0 < w.length))).map (fun w => w.map Char.toLower) = ws
  have hfil : (joinWords ws).filter (fun c => !c.isDigit) = joinWords ws := by
    apply List.filter_eq_self.mpr
    intro c hc
    rcases mem_joinWords ws c hc with ⟨w, hw, hcw⟩ | rfl
    · simp [lc_isDigit ((hws w hw).2 c hcw)]
    · decide
  rw [hfil, alphaRuns_joinWords ws hws]
  have hnn : ws.filter (fun w => decide (0 < w.length)) = ws := by
    apply List.filter_eq_self.mpr
    intro w hw
    have h1 := (hws w hw).1
    simp [List.length_pos, h1]
  rw [hnn]
  exact map_map_toLower_plain ws hws

theorem wordSplit_joinWords :
    ∀ (vs : List (List Char)), (∀ w ∈ vs, PlainWord w) →
      wordSplit (joinWords vs) = vs
  | [], _ => rfl
  | [w], hvs => by
    obtain ⟨hne, hlc⟩ := hvs w (List.mem_cons_self w [])
    cases w with
    | nil => exact absurd rfl hne
    | cons c w' =>
      have hall : ∀ x ∈ w', (!pyIsSpace x) = true := by
        intro x hx
        rw [lc_not_space (hlc x (List.mem_cons_of_mem c hx))]
        rfl
      show wordSplit (c :: w') = [c :: w']
      rw [wordSplit_cons, lc_not_space (hlc c (List.mem_cons_self c w'))]
      rw [takeWhile_all _ w' hall, dropWhile_all _ w' hall]
      simp [wordSplit_nil]
  | w :: v :: vs, hvs => by
    obtain ⟨hne, hlc⟩ := hvs w (List.mem_cons_self _ _)
    cases w with
    | nil => exact absurd rfl hne
    | cons c w' =>
      have hall : ∀ x ∈ w', (!pyIsSpace x) = true := by
        intro x hx
        rw [lc_not_space (hlc x (List.mem_cons_of_mem c hx))]
        rfl
      show wordSplit (c :: (w' ++ ' ' :: joinWords (v :: vs))) = (c :: w') :: v :: vs
      rw [wordSplit_cons, lc_not_space (hlc c (List.mem_cons_self c w'))]
      rw [takeWhile_all_append _ w' (' ' :: joinWords (v :: vs)) hall,
        dropWhile_all_append _ w' (' ' :: joinWords (v :: vs)) hall]
      rw [show (' ' :: joinWords (v :: vs)).takeWhile (fun x => !pyIsSpace x) = []
        from rfl]
      rw [show (' ' :: joinWords (v :: vs)).dropWhile (fun x => !pyIsSpace x) =
        ' ' :: joinWords (v :: vs) from rfl]
      rw [wordSplit_cons, show pyIsSpace ' ' = true from rfl]
      rw [wordSplit_joinWords (v :: vs) (fun x hx => hvs x (List.mem_cons_of_mem _ hx))]
      simp

theorem method2_token_plain (w : List Char) (hw : PlainWord w) :
    method2_token w = some w := by
  obtain ⟨hne, hlc⟩ := hw
  have hdrop1 : w.dropWhile (fun c => stripSet.contains c) = w := by
    cases w with
    | nil => rfl
    | cons c w' =>
      rw [List.dropWhile_cons, lc_not_strip (hlc c (List.mem_cons_self c w'))]
      simp
  have hdrop2 : w.reverse.dropWhile (fun c => stripSet.contains c) = w.reverse := by
    cases hrev : w.reverse with
    | nil => rfl
    | cons c w' =>
      have hcm : c ∈ w := by
        rw [← List.mem_reverse, hrev]
        exact List.mem_cons_self c w'
      rw [List.dropWhile_cons, lc_not_strip (hlc c hcm)]
      simp
  have hclean : pyStrip stripSet w = w := by
    unfold pyStrip
    rw [hdrop1, hdrop2, List.reverse_reverse]
  have hany : w.any Char.isAlpha = true := by
    cases w with
    | nil => exact absurd rfl hne
    | cons c w' =>
      exact List.any_eq_true.mpr
        ⟨c, List.mem_cons_self c w', lc_isAlpha (hlc c (List.mem_cons_self c w'))⟩
  unfold method2_token
  rw [hclean]
  rw [if_pos (⟨hne, hany⟩ : w ≠ [] ∧ w.any Char.isAlpha = true)]
  have hfil : w.filter Char.isAlpha = w :=
    List.filter_eq_self.mpr (fun c hc => lc_isAlpha (hlc c hc))
  rw [hfil, if_pos hne, map_toLower_lc hlc]

theorem filterMap_method2_all_some :
    ∀ (l : List (List Char)), (∀ w ∈ l, method2_token w = some w) →
      l.filterMap method2_token = l
  | [], _ => rfl
  | w :: l, h => by
    rw [List.filterMap_cons, h w (List.mem_cons_self w l)]
    rw [filterMap_method2_all_some l (fun x hx => h x (List.mem_cons_of_mem w hx))]

theorem method2_word_list (t : List Char) :
    (count_words_method2 t).word_list = (wordSplit t).filterMap method2_token := by
  simp only [count_words_method2]

theorem method2_tokens (ws : List (List Char)) (hws : ∀ w ∈ ws, PlainWord w) :
    (count_words_method2 (joinWords ws)).word_list = ws := by
  rw [method2_word_list, wordSplit_joinWords ws hws]
  exact filterMap_method2_all_some ws (fun w hw => method2_token_plain w (hws w hw))

theorem length_flatMap_cannotExp :
    ∀ ws : List (List Char),
      (ws.flatMap cannotExp).length = ws.length + ws.count ("cannot".data)
  | [] => rfl
  | w :: ws => by
    rw [List.flatMap_cons, List.length_append, length_flatMap_cannotExp ws,
      List.count_cons]
    unfold cannotExp
    by_cases h : w = "cannot".data
    · rw [if_pos h]
      simp only [List.length_cons, List.length_singleton, List.length_nil]
      have hb : (w == "cannot".data) = true := by simp [h]
      rw [hb]
      simp only [if_true, List.length_cons, List.length_nil]
      omega
    · rw [if_neg h]
      have hb : (w == "cannot".data) = false := by simp [h]
      rw [hb]
      simp only [List.length_singleton, Bool.false_eq_true, if_false, List.length_cons,
        List.length_nil]
      omega

theorem flatMap_cannotExp_of_count_zero :
    ∀ ws : List (List Char), ws.count ("cannot".data) = 0 →
      ws.flatMap cannotExp = ws
  | [], _ => rfl
  | w :: ws, h => by
    have hne : w ≠ "cannot".data := by
      intro he
      rw [List.count_cons] at h
      simp [he] at h
    have hws : ws.count ("cannot".data) = 0 := by
      rw [List.count_cons] at h
      omega
    rw [List.flatMap_cons, flatMap_cannotExp_of_count_zero ws hws]
    unfold cannotExp
    rw [if_neg hne]
    rfl

theorem consistent_eq_of_compare (rs : List MethodResult) (cmp : Comparison)
    (h : compare_results rs = some cmp) :
    cmp.consistent = (((rs.map (fun r => r.total_words)).dedup.length == 1) &&
      ((rs.map (fun r => r.unique_words)).dedup.length == 1)) := by
  simp only [compare_results] at h
  by_cases hl : rs.length < 2
  · rw [if_pos hl] at h
    exact absurd h (by simp)
  · rw [if_neg hl] at h
    obtain rfl := Option.some.inj h
    rfl

theorem total_words_def (r : MethodResult) : r.total_words = r.word_list.length := rfl

theorem unique_words_def (r : MethodResult) :
    r.unique_words = r.word_list.dedup.length := rfl

theorem dedup_three_same (n : Nat) : ([n, n, n] : List Nat).dedup = [n] := by
  rw [List.dedup_cons_of_mem (by simp), List.dedup_cons_of_mem (by simp),
    List.dedup_cons_of_not_mem (List.not_mem_nil n), List.dedup_nil]

/-- C10: the contraction table contains the apostrophe-free key `cannot`
mapped to `["can","not"]`; on any space-separated text of plain lowercase
words, Strategy A turns every standalone `cannot` into the two tokens
`can` and `not` while Strategies B and C keep it as the single token
`cannot`, so Strategy A's total exceeds B's and C's by the number of
`cannot` occurrences, and the three strategies are inconsistent exactly
when `cannot` occurs at least once. -/
theorem cannot_entry_inconsistency (ws : List (List Char))
    (h : ∀ w ∈ ws, PlainWord w) :
    (("cannot".data, ["can".data, "not".data]) ∈ STANDARD_CONTRACTIONS) ∧
    (count_words_method1 (joinWords ws)).word_list = ws.flatMap cannotExp ∧
    (count_words_method2 (joinWords ws)).word_list = ws ∧
    (count_words_method3 (joinWords ws)).word_list = ws ∧
    (count_words_method1 (joinWords ws)).total_words =
      ws.length + ws.count ("cannot".data) ∧
    (count_words_method2 (joinWords ws)).total_words = ws.length ∧
    (count_words_method3 (joinWords ws)).total_words = ws.length ∧
    (∀ rep : Report, verify_text (joinWords ws) = some rep →
      (rep.comparison.consistent = false ↔ 0 < ws.count ("cannot".data))) := by
  have h1 := method1_tokens ws h
  have h2 := method2_tokens ws h
  have h3 := method3_tokens ws h
  have ht1 : (count_words_method1 (joinWords ws)).total_words =
      ws.length + ws.count ("cannot".data) := by
    rw [total_words_def, h1, length_flatMap_cannotExp]
  have ht2 : (count_words_method2 (joinWords ws)).total_words = ws.length := by
    rw [total_words_def, h2]
  have ht3 : (count_words_method3 (joinWords ws)).total_words = ws.length := by
    rw [total_words_def, h3]
  have hu1 : (count_words_method1 (joinWords ws)).unique_words =
      (ws.flatMap cannotExp).dedup.length := by
    rw [unique_words_def, h1]
  have hu2 : (count_words_method2 (joinWords ws)).unique_words =
      ws.dedup.length := by
    rw [unique_words_def, h2]
  have hu3 : (count_words_method3 (joinWords ws)).unique_words =
      ws.dedup.length := by
    rw [unique_words_def, h3]
  refine ⟨by decide, h1, h2, h3, ht1, ht2, ht3, ?_⟩
  intro rep hrep
  obtain ⟨cmp, hcmp, hcomp, -, -, -, -⟩ := verify_text_eq (joinWords ws) rep hrep
  rw [hcomp, consistent_eq_of_compare _ _ hcmp]
  simp only [List.map_cons, List.map_nil]
  rw [ht1, ht2, ht3, hu1, hu2, hu3]
  by_cases hk : ws.count ("cannot".data) = 0
  · rw [hk, flatMap_cannotExp_of_count_zero ws hk, Nat.add_zero,
      dedup_three_same, dedup_three_same]
    simp
  · have hk' : 0 < ws.count ("cannot".data) := Nat.pos_of_ne_zero hk
    have hnm : (ws.length + ws.count ("cannot".data)) ∉
        ([ws.length, ws.length] : List Nat) := by
      intro hmem
      rcases List.mem_cons.mp hmem with he | hmem2
      · omega
      · rcases List.mem_cons.mp hmem2 with he | hmem3
        · omega
        · exact absurd hmem3 (List.not_mem_nil _)
    have e1 : ([ws.length + ws.count ("cannot".data), ws.length, ws.length] :
        List Nat).dedup.length = 2 := by
      rw [List.dedup_cons_of_not_mem hnm, List.dedup_cons_of_mem (by simp),
        List.dedup_cons_of_not_mem (List.not_mem_nil ws.length), List.dedup_nil]
      rfl
    rw [e1]
    simp [hk']

theorem cannot_entry_inconsistency_witness :
    (count_words_method1 (joinWords ["you".data, "cannot".data, "fly".data])).total_words = 4 ∧
    (count_words_method2 (joinWords ["you".data, "cannot".data, "fly".data])).total_words = 3 ∧
    (count_words_method3 (joinWords ["you".data, "cannot".data, "fly".data])).total_words = 3 := by
  have h := cannot_entry_inconsistency ["you".data, "cannot".data, "fly".data] (by decide)
  refine ⟨?_, ?_, ?_⟩
  · rw [h.2.2.2.2.1]
    decide
  · rw [h.2.2.2.2.2.1]
    decide
  · rw [h.2.2.2.2.2.2.1]
    decide


end Wordcount
